import Mathlib

/-!
A shallow embedding of the py2ts type-conversion and rendering engine
(src/py2ts/config.py, src/py2ts/data.py, src/py2ts/generate.py), together
with theorems settling the specification claims.

Conventions of the embedding:
* Python strings are Lean `String`s; Python ints are `Int`.
* Python `set`s of nodes are modelled as duplicate-free `List`s built by
  structural-equality deduplication (Python set iteration order is
  unspecified, so the embedding fixes one order; every property proved
  here is insensitive to that order, and rendering sorts strings exactly
  as the source does).
* Python brace characters inside generated text are written with the
  escapes \x7b and \x7d, and the single-quote character with \x27.
* `hash(self.name)` on complex nodes is modelled by the name itself
  composed with an (assumed injective) string hash, i.e. two nodes are
  hash-equal exactly when `complexHashKey` returns the same value.
-/

/-- Embeds `Config` from src/py2ts/config.py (field names and defaults as
in the dataclass). -/
structure Config where
  comment_line_length : Int := 80
  none_as_null : Bool := true
  export_interfaces : Bool := true
  any_as_unknown : Bool := true
  indent_with_tabs : Bool := true
  indent_size : Nat := 4
deriving DecidableEq, Repr

/-- Embeds `MinimalConfig` from src/py2ts/config.py: a TypedDict whose keys
are all optional (`NotRequired`), modelled as a structure of `Option`s. -/
structure MinimalConfig where
  comment_line_length : Option Int := none
  none_as_null : Option Bool := none
  export_interfaces : Option Bool := none
  any_as_unknown : Option Bool := none
  indent_with_tabs : Option Bool := none
  indent_size : Option Nat := none
deriving DecidableEq, Repr

/-- Embeds `Config.override` from src/py2ts/config.py: builds a new Config
taking each provided key, falling back to the current value (`config.get`
with default `self.field`). The receiver is not mutated. -/
def Config.override (self : Config) (config : MinimalConfig) : Config :=
  { comment_line_length := config.comment_line_length.getD self.comment_line_length
    none_as_null := config.none_as_null.getD self.none_as_null
    export_interfaces := config.export_interfaces.getD self.export_interfaces
    indent_with_tabs := config.indent_with_tabs.getD self.indent_with_tabs
    indent_size := config.indent_size.getD self.indent_size
    any_as_unknown := config.any_as_unknown.getD self.any_as_unknown }

/-- Embeds the `Config.TAB` property: one tab character, or
`indent_size` spaces when tabs are disabled. -/
def Config.TAB (c : Config) : String :=
  if c.indent_with_tabs then "\t" else String.mk (List.replicate c.indent_size ' ')

/-- Embeds the configuration handling at the top of `generate_ts`
(src/py2ts/generate.py lines 70-73): when a config dict is passed, the
global CONFIG is reset to defaults (`CONFIG.__init__()`), after which
`CONFIG.override(config)` is called; `override` returns a fresh Config and
the return value is discarded, so the global stays at the defaults.
`current` is the global CONFIG value before the call. -/
def effectiveConfig (current : Config) (config : Option MinimalConfig) : Config :=
  match config with
  | none => current
  | some c =>
      let reset : Config := {}
      let _ := reset.override c
      reset

/-- Modelled from the spec: the effective configuration the spec promises
for a `generate(descriptor, config)` call - the documented defaults merged
with the supplied partial overrides ("Partial overrides merge over
defaults; unspecified options retain defaults."). -/
def specMergedConfig (config : Option MinimalConfig) : Config :=
  match config with
  | none => {}
  | some c => Config.override {} c

/-- The default configuration (all dataclass defaults). -/
def defaultConfig : Config := {}

/-- Embeds the `TypescriptPrimitive` enum from src/py2ts/data.py. -/
inductive TSPrim where
  | string | number | boolean | null | undefined | unknown | never | void
  | uint8array | date | any
deriving DecidableEq, Repr

/-- The `value` of each `TypescriptPrimitive` member. -/
def TSPrim.value : TSPrim → String
  | .string => "string"
  | .number => "number"
  | .boolean => "boolean"
  | .null => "null"
  | .undefined => "undefined"
  | .unknown => "unknown"
  | .never => "never"
  | .void => "void"
  | .uint8array => "Uint8Array"
  | .date => "Date"
  | .any => "any"

/-- A literal / enum-member value: Python `str` or `int` (the only value
shapes the claims exercise; `TSEnumType.__str__` accepts exactly these two
and raises on anything else). -/
inductive LitVal where
  | s (v : String)
  | i (v : Int)
deriving DecidableEq, Repr

/-- Python `str(value)` for a literal value. -/
def LitVal.str : LitVal → String
  | .s v => v
  | .i v => toString v

/--
Embeds the `TypescriptType` node hierarchy of src/py2ts/data.py.
Every node carries the `not_required` flag `nr` (dataclass field
`not_required`, default False). The `comment` field is not modelled (no
claim depends on it). Constructors:
* `prim` - `TSPrimitiveType`
* `lit` - `TSLiteralType`
* `unionT` - `TSUnionType` (its `elements` set as a duplicate-free list)
* `arrayT` - `TSArrayType` holding a single element node, the only shape
  `_generate_ts` ever constructs; the set/sequence-valued `elements` slot
  of the dataclass is modelled separately by `ArrayElems`
* `tupleT` - `TSTupleType` (set as list)
* `recordT` - `TSRecordType` (`elements = [key, value]`)
* `enumT` - `TSEnumType` (name, insertion-ordered member dict as list)
* `ref` - `TSInterfaceRef` (name only)
* `intf` - `TSInterface` (name, insertion-ordered field dict as list,
  optional inheritance node, itself an interface or reference; the
  `Optional` slot is carried as a list holding at most one node - `[]`
  is `None`, `[p]` a present parent - which keeps every traversal
  structurally recursive and hence computable by the kernel)
-/
inductive TSType where
  | prim (nr : Bool) (p : TSPrim)
  | lit (nr : Bool) (v : LitVal)
  | unionT (nr : Bool) (elems : List TSType)
  | arrayT (nr : Bool) (elem : TSType)
  | tupleT (nr : Bool) (elems : List TSType)
  | recordT (nr : Bool) (key : TSType) (val : TSType)
  | enumT (nr : Bool) (name : String) (members : List (String × LitVal))
  | ref (nr : Bool) (name : String)
  | intf (nr : Bool) (name : String) (fields : List (String × TSType))
      (parent : List TSType)
deriving Repr

namespace TSType

mutual

/-- Structural size of a node (used for termination measures). -/
def sizeT : TSType → Nat
  | .prim _ _ => 1
  | .lit _ _ => 1
  | .unionT _ es => 1 + sizeL es
  | .arrayT _ e => 1 + sizeT e
  | .tupleT _ es => 1 + sizeL es
  | .recordT _ k v => 1 + sizeT k + sizeT v
  | .enumT _ _ _ => 1
  | .ref _ _ => 1
  | .intf _ _ fs p => 1 + sizeF fs + sizeL p

def sizeL : List TSType → Nat
  | [] => 0
  | t :: ts => 1 + sizeT t + sizeL ts

def sizeF : List (String × TSType) → Nat
  | [] => 0
  | (_, t) :: fs => 1 + sizeT t + sizeF fs

end

mutual

/-- Structural equality of nodes, modelling the dataclass-generated
`__eq__` (same class and equal field tuples; dict-valued fields are
compared in order, mirroring the insertion-ordered dicts the generator
builds). -/
def beqT : TSType → TSType → Bool
  | .prim nr p, .prim nr' p' => nr == nr' && p == p'
  | .lit nr v, .lit nr' v' => nr == nr' && v == v'
  | .unionT nr es, .unionT nr' es' => nr == nr' && beqL es es'
  | .arrayT nr e, .arrayT nr' e' => nr == nr' && beqT e e'
  | .tupleT nr es, .tupleT nr' es' => nr == nr' && beqL es es'
  | .recordT nr k v, .recordT nr' k' v' => nr == nr' && beqT k k' && beqT v v'
  | .enumT nr n ms, .enumT nr' n' ms' => nr == nr' && n == n' && ms == ms'
  | .ref nr n, .ref nr' n' => nr == nr' && n == n'
  | .intf nr n fs p, .intf nr' n' fs' p' =>
      nr == nr' && n == n' && beqF fs fs' && beqL p p'
  | _, _ => false

def beqL : List TSType → List TSType → Bool
  | [], [] => true
  | t :: ts, t' :: ts' => beqT t t' && beqL ts ts'
  | _, _ => false

def beqF : List (String × TSType) → List (String × TSType) → Bool
  | [], [] => true
  | (k, v) :: fs, (k', v') :: fs' => k == k' && beqT v v' && beqF fs fs'
  | _, _ => false

end

mutual

theorem beqT_rfl : (a : TSType) → beqT a a = true
  | .prim nr p => by simp [beqT]
  | .lit nr v => by simp [beqT]
  | .unionT nr es => by simp [beqT, beqL_rfl es]
  | .arrayT nr e => by simp [beqT, beqT_rfl e]
  | .tupleT nr es => by simp [beqT, beqL_rfl es]
  | .recordT nr k v => by simp [beqT, beqT_rfl k, beqT_rfl v]
  | .enumT nr n ms => by simp [beqT]
  | .ref nr n => by simp [beqT]
  | .intf nr n fs p => by simp [beqT, beqF_rfl fs, beqL_rfl p]

theorem beqL_rfl : (l : List TSType) → beqL l l = true
  | [] => by simp [beqL]
  | t :: ts => by simp [beqL, beqT_rfl t, beqL_rfl ts]

theorem beqF_rfl : (l : List (String × TSType)) → beqF l l = true
  | [] => by simp [beqF]
  | (k, v) :: fs => by simp [beqF, beqT_rfl v, beqF_rfl fs]

end

theorem beq_sound_aux : ∀ n : Nat,
    (∀ a b : TSType, sizeT a ≤ n → beqT a b = true → a = b) ∧
    (∀ l l' : List TSType, sizeL l ≤ n → beqL l l' = true → l = l') ∧
    (∀ fs fs' : List (String × TSType), sizeF fs ≤ n → beqF fs fs' = true → fs = fs') := by
  intro n
  induction n with
  | zero =>
      have hpos : ∀ t : TSType, 1 ≤ sizeT t := by
        intro t
        cases t <;> (simp only [sizeT]; omega)
      refine ⟨?_, ?_, ?_⟩
      · intro a b hsz
        exact absurd hsz (by have := hpos a; omega)
      · intro l l' hsz h
        cases l with
        | nil => cases l' with
          | nil => rfl
          | cons t ts => simp [beqL] at h
        | cons t ts =>
            exfalso
            have h1 := hpos t
            simp only [sizeL] at hsz
            omega
      · intro fs fs' hsz h
        cases fs with
        | nil => cases fs' with
          | nil => rfl
          | cons kv fs' => simp [beqF] at h
        | cons kv fs =>
            exfalso
            obtain ⟨k, v⟩ := kv
            have h1 := hpos v
            simp only [sizeF] at hsz
            omega
  | succ n ih =>
      obtain ⟨ihT, ihL, ihF⟩ := ih
      have hT : ∀ a b : TSType, sizeT a ≤ n + 1 → beqT a b = true → a = b := by
        intro a b hsz h
        cases a <;> cases b <;> simp [beqT] at h
        case prim.prim => simp [h.1, h.2]
        case lit.lit => simp [h.1, h.2]
        case unionT.unionT nr es nr' es' =>
            obtain ⟨rfl, h2⟩ := h
            simp [sizeT] at hsz
            rw [ihL es es' (by omega) h2]
        case arrayT.arrayT nr e nr' e' =>
            obtain ⟨rfl, h2⟩ := h
            simp [sizeT] at hsz
            rw [ihT e e' (by omega) h2]
        case tupleT.tupleT nr es nr' es' =>
            obtain ⟨rfl, h2⟩ := h
            simp [sizeT] at hsz
            rw [ihL es es' (by omega) h2]
        case recordT.recordT nr k v nr' k' v' =>
            obtain ⟨⟨rfl, h2⟩, h3⟩ := h
            simp [sizeT] at hsz
            rw [ihT k k' (by omega) h2, ihT v v' (by omega) h3]
        case enumT.enumT => simp [h.1.1, h.1.2, h.2]
        case ref.ref => simp [h.1, h.2]
        case intf.intf nr nm fs p nr' nm' fs' p' =>
            obtain ⟨⟨⟨rfl, rfl⟩, h3⟩, h4⟩ := h
            simp [sizeT] at hsz
            rw [ihF fs fs' (by omega) h3, ihL p p' (by omega) h4]
      refine ⟨hT, ?_, ?_⟩
      · intro l
        induction l with
        | nil =>
            intro l' hsz h
            cases l' with
            | nil => rfl
            | cons t ts => simp [beqL] at h
        | cons t ts ihl =>
            intro l' hsz h
            cases l' with
            | nil => simp [beqL] at h
            | cons t' ts' =>
                simp only [beqL, Bool.and_eq_true] at h
                simp only [sizeL] at hsz
                rw [hT t t' (by omega) h.1, ihl ts' (by omega) h.2]
      · intro fs
        induction fs with
        | nil =>
            intro fs' hsz h
            cases fs' with
            | nil => rfl
            | cons kv fs' => simp [beqF] at h
        | cons kv fs ihf =>
            obtain ⟨k, v⟩ := kv
            intro fs' hsz h
            cases fs' with
            | nil => simp [beqF] at h
            | cons kv' fs' =>
                obtain ⟨k', v'⟩ := kv'
                simp only [beqF, Bool.and_eq_true, beq_iff_eq] at h
                simp only [sizeF] at hsz
                obtain ⟨⟨rfl, h2⟩, h3⟩ := h
                rw [hT v v' (by omega) h2, ihf fs' (by omega) h3]

theorem beqT_sound {a b : TSType} (h : beqT a b = true) : a = b :=
  (beq_sound_aux (sizeT a)).1 a b (Nat.le_refl _) h

instance : DecidableEq TSType := fun a b =>
  if h : beqT a b = true then isTrue (beqT_sound h)
  else isFalse fun he => h (he ▸ beqT_rfl a)

end TSType

namespace TSType

/-- The `not_required` flag of a node. -/
def nrOf : TSType → Bool
  | .prim nr _ | .lit nr _ | .unionT nr _ | .arrayT nr _ | .tupleT nr _
  | .recordT nr _ _ | .enumT nr _ _ | .ref nr _ | .intf nr _ _ _ => nr

/-- The `name` of a complex node (`TSComplex` subclasses: enum, interface
reference, interface); `none` for every other node. -/
def complexName : TSType → Option String
  | .enumT _ n _ => some n
  | .ref _ n => some n
  | .intf _ n _ _ => some n
  | _ => none

/-- Attribute access `node.name`, defined only on complex nodes in the
source; the `""` default is never reached by the generator's outputs. -/
def nameD (t : TSType) : String := (complexName t).getD ""

/-- `isinstance(t, TSInterface)`. -/
def isIntf : TSType → Bool
  | .intf _ _ _ _ => true
  | _ => false

/-- Python string `<` (lexicographic by code points), written out over
the character lists. -/
def charListLt : List Char → List Char → Bool
  | [], [] => false
  | [], _ :: _ => true
  | _ :: _, [] => false
  | c :: cs, d :: ds =>
      if c.toNat < d.toNat then true
      else if d.toNat < c.toNat then false
      else charListLt cs ds

/-- Python string `<`. -/
def strLt (a b : String) : Bool := charListLt a.data b.data

/-- Python string `<=` (`not (b < a)` for the total order), the
comparison driving `sorted`. -/
def strLe (a b : String) : Bool := !(strLt b a)

/-- Stable insertion into a `strLe`-sorted list of strings. -/
def insertStr (x : String) : List String → List String
  | [] => [x]
  | y :: ys => if strLe x y then x :: y :: ys else y :: insertStr x ys

/-- Python `sorted` on a list of strings (a stable sort; insertion sort
agrees with any stable sort for a total preorder). -/
def sortStrs (l : List String) : List String := l.foldr insertStr []

/-- The dataclass field `TSEnumType.elements` entry rendered by
`TSEnumType.__str__`: string values single-quoted, ints bare. -/
def enumValueTok : LitVal → String
  | .s v => "\x27" ++ v ++ "\x27"
  | .i v => toString v

/-- One member line of `TSEnumType.__str__`:
`TAB + key + " = " + value + ",\n"` (the comma is appended for every
member, the last included). -/
def enumMemberLine (cfg : Config) (kv : String × LitVal) : String :=
  cfg.TAB ++ kv.1 ++ " = " ++ enumValueTok kv.2 ++ ",\n"

/-- The `export ` prefix controlled by `CONFIG.export_interfaces`. -/
def exportPfx (cfg : Config) : String :=
  if cfg.export_interfaces then "export " else ""

mutual

/-- Embeds `__str__` of every node class of src/py2ts/data.py:
* `TSPrimitiveType.__str__`: the primitive token.
* `TSLiteralType.__str__`: `f-string "{value}"` - the value in double
  quotes whatever its type.
* `TSUnionType.__str__`: member strings (an interface contributes its
  name, anything else its full `str`) sorted and joined with a pipe.
* `TSArrayType.__str__` for the single-element shape the generator
  builds (the set/sequence shape raises; see `tsArrayStrElements`).
* `TSTupleType.__str__`: sorted element names in square brackets.
* `TSRecordType.__str__`: `Record<key, value>` in element order.
* `TSEnumType.__str__`: the full enum declaration, one member per line,
  built by the source's string-append loop.
* `TSInterfaceRef.__str__`: the name.
* `TSInterface.__str__`: the full interface declaration; an interface
  with no own fields and a parent renders as a type alias instead.
The `_elements_to_names([t])[0]` steps (name for a complex node, `str(t)`
otherwise; see `elementName`) are written inline to keep the recursion
structural. -/
def renderTS (cfg : Config) : TSType → String
  | .prim _ p => p.value
  | .lit _ v => "\"" ++ v.str ++ "\""
  | .unionT _ es => String.intercalate " | " (sortStrs (unionStrs cfg es))
  | .arrayT _ e =>
      "Array<" ++
        (match complexName e with
         | some n => n
         | none => renderTS cfg e) ++ ">"
  | .tupleT _ es => "[" ++ String.intercalate ", " (sortStrs (elemNames cfg es)) ++ "]"
  | .recordT _ k v =>
      "Record<" ++
        (match complexName k with
         | some n => n
         | none => renderTS cfg k) ++ ", " ++
        (match complexName v with
         | some n => n
         | none => renderTS cfg v) ++ ">"
  | .enumT _ n ms =>
      ms.foldl (fun acc kv => acc ++ enumMemberLine cfg kv)
        (exportPfx cfg ++ "enum " ++ n ++ " \x7b\n") ++ "\x7d"
  | .ref _ n => n
  | .intf _ n [] (pa :: _) => exportPfx cfg ++ "type " ++ n ++ " = " ++ nameD pa ++ ";\n"
  | .intf _ n fs p =>
      exportPfx cfg ++ "interface " ++ n ++
        (match p with
         | pa :: _ => " extends " ++ nameD pa
         | [] => "") ++ " \x7b\n" ++ fieldLines cfg fs ++ "\x7d"

/-- `_elements_to_names` applied pointwise (before its sorting step). -/
def elemNames (cfg : Config) : List TSType → List String
  | [] => []
  | t :: ts =>
      (match complexName t with
       | some n => n
       | none => renderTS cfg t) :: elemNames cfg ts

/-- The member strings collected by `TSUnionType.__str__`: only a
`TSInterface` is abbreviated to its name; every other node (a full
`TSEnumType` included) contributes its complete `str`. -/
def unionStrs (cfg : Config) : List TSType → List String
  | [] => []
  | t :: ts =>
      (if isIntf t then nameD t else renderTS cfg t) :: unionStrs cfg ts

/-- The field lines accumulated by the loop in `TSInterface.__str__`:
`TAB + key(+"?") + ": " + name-or-str(value) + ";\n"` per field, in dict
insertion order. -/
def fieldLines (cfg : Config) : List (String × TSType) → String
  | [] => ""
  | (k, v) :: fs =>
      cfg.TAB ++ k ++ (if nrOf v then "?" else "") ++ ": " ++
        (match complexName v with
         | some n => n
         | none => renderTS cfg v) ++ ";\n" ++ fieldLines cfg fs

end

/-- `_elements_to_names([t])[0]`: the name for a complex node, `str(t)`
otherwise. -/
def elementName (cfg : Config) (t : TSType) : String :=
  match complexName t with
  | some n => n
  | none => renderTS cfg t

end TSType

namespace TSType

/-- Node size ≥ 1. -/
theorem sizeT_pos : ∀ t : TSType, 1 ≤ sizeT t := by
  intro t
  cases t <;> (simp only [sizeT]; omega)

/-- Embeds `TSArrayType.__str__` over the raw dataclass slot
`TSArrayType.elements`, which the dataclass type allows to be either a
single node (`Sum.inr`, the only shape `_generate_ts` constructs) or a
Python set/sequence of nodes (`Sum.inl`). The set/sequence shape raises
`NotImplementedError("Array of multiple types is not supported!")`
regardless of how many nodes it holds; the single-node shape renders
`Array<name-or-str(element)>`. -/
def tsArrayStrElements (cfg : Config) : List TSType ⊕ TSType → Except String String
  | .inl _ => .error "Array of multiple types is not supported!"
  | .inr t => .ok ("Array<" ++ elementName cfg t ++ ">")

mutual

/-- Embeds `exclude` (src/py2ts/data.py): `TSEnumType.exclude` rebuilds
the enum keeping members whose key is not excluded; `TSInterface.exclude`
rebuilds the interface keeping fields whose key is not excluded and
applies `exclude` to the inheritance node; the base `TSComplex.exclude`
(reached by `TSInterfaceRef`) returns the node unchanged, as does every
non-complex node (which has no `exclude`). Both rebuilds use constructor
defaults for `not_required`. -/
def exclude (ex : List String) : TSType → TSType
  | .enumT _ n ms => .enumT false n (ms.filter (fun kv => !(ex.contains kv.1)))
  | .intf _ n fs p => .intf false n (fs.filter (fun kv => !(ex.contains kv.1))) (excludeP ex p)
  | t => t

/-- `exclude` applied to the (at most one) inheritance node. -/
def excludeP (ex : List String) : List TSType → List TSType
  | [] => []
  | pa :: rest => exclude ex pa :: excludeP ex rest

end

/-- Models `TSComplex.__hash__ = hash(self.name)`: the hash of a complex
node (enum, interface reference, interface) is a function of its name
alone; composing with an injective string hash, two complex nodes are
hash-equal exactly when this key agrees. Non-complex nodes hash by their
content and are not in the claims' scope. -/
def complexHashKey : TSType → Option String := complexName

end TSType

/-- Source-side primitive descriptors: the Python types that
`TypescriptPrimitive.from_python_type` recognises (str, int, float, bool,
bytes, datetime, NoneType, Any). -/
inductive PPrim where
  | pstr | pint | pfloat | pbool | pbytes | pdatetime | pnone | pany
deriving DecidableEq, Repr

/-- Embeds `TypescriptPrimitive.from_python_type`: the fixed TYPE_MAP plus
the two configuration-dependent entries (`NoneType` maps to null or
undefined by `none_as_null`; `Any` maps to unknown or any by
`any_as_unknown`). -/
def mapPrim (cfg : Config) : PPrim → TSPrim
  | .pstr => .string
  | .pint => .number
  | .pfloat => .number
  | .pbool => .boolean
  | .pbytes => .uint8array
  | .pdatetime => .date
  | .pnone => if cfg.none_as_null then .null else .undefined
  | .pany => if cfg.any_as_unknown then .unknown else .any

/-- A source type descriptor, covering the shapes `_generate_ts` /
`_basic_to_ts` dispatch on (src/py2ts/generate.py). Struct-like types
(dataclasses, TypedDicts and the generic-class fallback, all handled by
`_classlike_to_ts`) are referred to by name into an environment that
models the reflection data. Descriptor-level normalisation performed by
Python's `typing` module itself (flattening and pre-deduplication of
nested `Union[...]` forms) is not modelled; the generator receives the
member list as written. -/
inductive PDesc where
  | prim (p : PPrim)
  | notRequired (d : PDesc)
  | unionD (ds : List PDesc)
  | seqD (d : PDesc)
  | tupleD (ds : List PDesc)
  | litD (vs : List LitVal)
  | dictD (args : List PDesc)
  | enumD (name : String) (members : List (String × LitVal))
  | structD (name : String)
deriving Repr

/-- The reflection data of one struct-like type: its `__name__`, its
declared-only field annotations (`_get_type_hints_no_inheritance`, in
declaration order), and its qualifying ancestors - `set(inspect.getmro(t))`
minus the type itself, `object`, `dict` and `ABC`
(src/py2ts/generate.py lines 142-146), listed by name. -/
structure StructDef where
  name : String
  fields : List (String × PDesc)
  bases : List String
deriving Repr

/-- The environment of struct-like types, looked up by `__name__`. -/
abbrev Env := List StructDef

/-- Errors a generation call can raise:
`multipleInheritance` models the `NotImplementedError` of
`_classlike_to_ts` (carrying the offending base names);
`invalidDict` models the unpacking failure for a dict descriptor with
more than two arguments; `missingStruct` is embedding-only (a Python
class always carries its own reflection data). -/
inductive GenErr where
  | multipleInheritance (names : List String)
  | invalidDict
  | missingStruct (name : String)
deriving DecidableEq, Repr

instance {ε α : Type} [DecidableEq ε] [DecidableEq α] : DecidableEq (Except ε α) := by
  intro a b
  cases a <;> cases b
  case error.error e e' =>
      exact if h : e = e' then isTrue (by rw [h]) else isFalse (by intro he; cases he; exact h rfl)
  case ok.ok v v' =>
      exact if h : v = v' then isTrue (by rw [h]) else isFalse (by intro he; cases he; exact h rfl)
  case error.ok e v => exact isFalse (by intro he; cases he)
  case ok.error v e => exact isFalse (by intro he; cases he)

/-- `type.not_required = True` (the `NotRequired` branch of
`_basic_to_ts`). -/
def TSType.setNR : TSType → TSType
  | .prim _ p => .prim true p
  | .lit _ v => .lit true v
  | .unionT _ es => .unionT true es
  | .arrayT _ e => .arrayT true e
  | .tupleT _ es => .tupleT true es
  | .recordT _ k v => .recordT true k v
  | .enumT _ n ms => .enumT true n ms
  | .ref _ n => .ref true n
  | .intf _ n fs p => .intf true n fs p

/-- `isinstance(i, TSInterface) and len(i.elements) == 0`: the empty
interfaces skipped by the bases loop of `_classlike_to_ts`. -/
def isEmptyIntf : TSType → Bool
  | .intf _ _ [] _ => true
  | _ => false

/-- The bases the loop of `_classlike_to_ts` keeps (`valid_bases`): every
resolved base that is not an empty `TSInterface` (a `TSInterfaceRef` is
never skipped). -/
def keptBases (rs : List TSType) : List TSType :=
  rs.filter (fun r => !(isEmptyIntf r))

/-- Embeds the inheritance selection of `_classlike_to_ts`
(src/py2ts/generate.py lines 160-166) over the resolved bases: zero kept
bases give no parent (`[]`), exactly one kept base becomes the parent
(`[p]`), more than one raises `NotImplementedError` naming the kept
bases. -/
def selectParent (rs : List TSType) : Except GenErr (List TSType) :=
  match keptBases rs with
  | [] => .ok []
  | [p] => .ok [p]
  | ps => .error (.multipleInheritance (ps.map TSType.nameD))

/-- Result of a fuel-indexed generation call: `none` is fuel exhaustion
(shown unreachable for the fuel bound `genFuel`), otherwise the Python
outcome - an exception or a node together with the updated `interfaces`
recursion-tracking set (a monotonically growing list of struct names,
cleared by `generate_ts` at the start of each top-level call). -/
abbrev GenRes (α : Type) := Option (Except GenErr (α × List String))

mutual

/-- Embeds `_generate_ts` / `_basic_to_ts` / `_dict_to_ts` /
`_enum_to_ts` / `_classlike_to_ts` (src/py2ts/generate.py), with the
global `interfaces` set threaded explicitly as `fl` and structural
recursion bounded by fuel:
* a struct name already in `interfaces` yields `TSInterfaceRef(name)`;
* otherwise the name is added, the declared fields are generated in
  order, then every qualifying ancestor is resolved and the parent
  selected by `selectParent`;
* `NotRequired` sets the flag on the generated inner node;
* unions and tuples generate every member and collapse structural
  duplicates (the Python set construction);
* a single-argument Literal stays bare, several arguments become a union
  of literal nodes;
* dict descriptors pad missing arguments with `Any` up to two and build a
  Record from key and value. -/
def genTS (cfg : Config) (env : Env) : Nat → List String → PDesc → GenRes TSType
  | 0, _, _ => none
  | fuel + 1, fl, d =>
    match d with
    | .prim p => some (.ok (.prim false (mapPrim cfg p), fl))
    | .notRequired d' =>
        match genTS cfg env fuel fl d' with
        | none => none
        | some (.error e) => some (.error e)
        | some (.ok (t, fl')) => some (.ok (t.setNR, fl'))
    | .unionD ds =>
        match genList cfg env fuel fl ds with
        | none => none
        | some (.error e) => some (.error e)
        | some (.ok (ts, fl')) => some (.ok (.unionT false ts.dedup, fl'))
    | .seqD d' =>
        match genTS cfg env fuel fl d' with
        | none => none
        | some (.error e) => some (.error e)
        | some (.ok (t, fl')) => some (.ok (.arrayT false t, fl'))
    | .tupleD ds =>
        match genList cfg env fuel fl ds with
        | none => none
        | some (.error e) => some (.error e)
        | some (.ok (ts, fl')) => some (.ok (.tupleT false ts.dedup, fl'))
    | .litD vs =>
        match vs with
        | [v] => some (.ok (.lit false v, fl))
        | _ => some (.ok (.unionT false (vs.map (TSType.lit false)).dedup, fl))
    | .dictD args =>
        match args with
        | _ :: _ :: _ :: _ => some (.error .invalidDict)
        | _ =>
            match genTS cfg env fuel fl (args.getD 0 (.prim .pany)) with
            | none => none
            | some (.error e) => some (.error e)
            | some (.ok (k, fl')) =>
                match genTS cfg env fuel fl' (args.getD 1 (.prim .pany)) with
                | none => none
                | some (.error e) => some (.error e)
                | some (.ok (v, fl'')) => some (.ok (.recordT false k v, fl''))
    | .enumD n ms => some (.ok (.enumT false n ms, fl))
    | .structD n =>
        if n ∈ fl then some (.ok (.ref false n, fl))
        else
          match env.find? (fun sd => sd.name == n) with
          | none => some (.error (.missingStruct n))
          | some sd =>
              match genFields cfg env fuel (n :: fl) sd.fields with
              | none => none
              | some (.error e) => some (.error e)
              | some (.ok (fs, fl2)) =>
                  match genBases cfg env fuel fl2 sd.bases with
                  | none => none
                  | some (.error e) => some (.error e)
                  | some (.ok (rs, fl3)) =>
                      match selectParent rs with
                      | .error e => some (.error e)
                      | .ok par => some (.ok (.intf false n fs par, fl3))

/-- Members of a union/tuple descriptor generated in order (the Python
set comprehension iterates the arguments left to right), threading the
`interfaces` set. -/
def genList (cfg : Config) (env : Env) : Nat → List String → List PDesc → GenRes (List TSType)
  | 0, _, _ => none
  | _ + 1, fl, [] => some (.ok ([], fl))
  | fuel + 1, fl, d :: ds =>
      match genTS cfg env fuel fl d with
      | none => none
      | some (.error e) => some (.error e)
      | some (.ok (t, fl')) =>
          match genList cfg env fuel fl' ds with
          | none => none
          | some (.error e) => some (.error e)
          | some (.ok (ts, fl'')) => some (.ok (t :: ts, fl''))

/-- The declared fields of a struct generated in declaration order
(`for n, v in hints.items(): elements[n] = _generate_ts(v)`). -/
def genFields (cfg : Config) (env : Env) :
    Nat → List String → List (String × PDesc) → GenRes (List (String × TSType))
  | 0, _, _ => none
  | _ + 1, fl, [] => some (.ok ([], fl))
  | fuel + 1, fl, (k, d) :: fds =>
      match genTS cfg env fuel fl d with
      | none => none
      | some (.error e) => some (.error e)
      | some (.ok (t, fl')) =>
          match genFields cfg env fuel fl' fds with
          | none => none
          | some (.error e) => some (.error e)
          | some (.ok (fs, fl'')) => some (.ok ((k, t) :: fs, fl''))

/-- The bases loop of `_classlike_to_ts`: every qualifying ancestor is
resolved through `_generate_ts` (so an ancestor already in-flight
resolves to a `TSInterfaceRef`); the resolved nodes are returned in
order, unfiltered (`selectParent` applies the empty-interface filter). -/
def genBases (cfg : Config) (env : Env) : Nat → List String → List String → GenRes (List TSType)
  | 0, _, _ => none
  | _ + 1, fl, [] => some (.ok ([], fl))
  | fuel + 1, fl, b :: bs =>
      match genTS cfg env fuel fl (.structD b) with
      | none => none
      | some (.error e) => some (.error e)
      | some (.ok (r, fl')) =>
          match genBases cfg env fuel fl' bs with
          | none => none
          | some (.error e) => some (.error e)
          | some (.ok (rs, fl'')) => some (.ok (r :: rs, fl''))

end

/-- Embeds the top of `generate_ts` (src/py2ts/generate.py lines 48-79):
the effective configuration for the call (see `effectiveConfig`), the
cleared `interfaces` set, and the recursive descent; `none` is fuel
exhaustion, shown unreachable at `genFuel`. -/
def generate_ts (env : Env) (current : Config) (config : Option MinimalConfig)
    (fuel : Nat) (d : PDesc) : GenRes TSType :=
  genTS (effectiveConfig current config) env fuel [] d

namespace TSType

/-- Sum of node sizes of a list (no per-element constant; used as the
traversal measure of the closure renderer). -/
def pmL : List TSType → Nat
  | [] => 0
  | t :: ts => sizeT t + pmL ts

/-- Sum of node sizes of a field list. -/
def pmF : List (String × TSType) → Nat
  | [] => 0
  | (_, t) :: fs => sizeT t + pmF fs

/-- Stable insertion into a list sorted by the rendering key: the node
comparison `TypescriptType.__lt__` is `str(self) < str(other)`. -/
def insertNode (key : TSType → String) (x : TSType) : List TSType → List TSType
  | [] => [x]
  | y :: ys => if strLe (key x) (key y) then x :: y :: ys else y :: insertNode key x ys

/-- Python `sorted` on nodes (stable, ordered by `__lt__`, i.e. by the
rendered string; insertion sort agrees with any stable sort for a total
preorder). -/
def sortNodes (key : TSType → String) (l : List TSType) : List TSType :=
  l.foldr (insertNode key) []

/-- The state of one `ts_reference_str` call: the `visited` set and the
accumulated output, kept as the list of emitted nodes in text order
(the source prepends `f"{element}\n\n"`, i.e. conses onto this list). -/
structure RefState where
  visited : List TSType
  emitted : List TSType
deriving Repr

/-- `set.add`. -/
def addIfAbsent (x : TSType) (l : List TSType) : List TSType :=
  if l.contains x then l else x :: l

mutual

/-- Embeds `parse_elements` inside `ts_reference_str`
(src/py2ts/data.py lines 564-596), indexed by fuel (every recursive call
decrements it; `none` is fuel exhaustion, which `parseFuelEnough` shows
unreachable at the bound `tsReferenceList` uses):
* an element already in `visited` is skipped;
* a `TSInterface` is prepended to the output and added to `visited`,
  then its field values are parsed in dict order, then its inheritance;
* a `TSEnumType` is prepended and added to `visited`;
* a `DerivedType` parses its children sorted by rendered string (the
  guard inside that loop tests the derived element itself, as in the
  source), adding each child to `visited` after parsing it; the derived
  node itself is never added;
* anything else is only added to `visited`. -/
def parseElementsF (cfg : Config) : Nat → TSType → RefState → Option RefState
  | 0, _, _ => none
  | fuel + 1, e, st =>
      if st.visited.contains e then some st
      else
        match e with
        | .intf _ _ fs p =>
            (match parseFieldsF cfg fuel fs ⟨e :: st.visited, e :: st.emitted⟩ with
             | none => none
             | some st2 =>
                 match p with
                 | pa :: _ => parseElementsF cfg fuel pa st2
                 | [] => some st2)
        | .enumT _ _ _ => some ⟨e :: st.visited, e :: st.emitted⟩
        | .unionT _ es => parseChildrenF cfg fuel e (sortNodes (renderTS cfg) es) st
        | .tupleT _ es => parseChildrenF cfg fuel e (sortNodes (renderTS cfg) es) st
        | .arrayT _ el => parseChildrenF cfg fuel e (sortNodes (renderTS cfg) [el]) st
        | .recordT _ k v => parseChildrenF cfg fuel e (sortNodes (renderTS cfg) [k, v]) st
        | _ => some ⟨e :: st.visited, st.emitted⟩

/-- The loop over `element.elements.items()` in the interface branch. -/
def parseFieldsF (cfg : Config) : Nat → List (String × TSType) → RefState → Option RefState
  | 0, _, _ => none
  | _ + 1, [], st => some st
  | fuel + 1, (_, v) :: fs, st =>
      match parseElementsF cfg fuel v st with
      | none => none
      | some st1 => parseFieldsF cfg fuel fs st1

/-- The loop over the sorted children in the derived branch, including
the source's guard on the parent element. -/
def parseChildrenF (cfg : Config) : Nat → TSType → List TSType → RefState → Option RefState
  | 0, _, _, _ => none
  | _ + 1, _, [], st => some st
  | fuel + 1, parent, ele :: rest, st =>
      if st.visited.contains parent then parseChildrenF cfg fuel parent rest st
      else
        match parseElementsF cfg fuel ele st with
        | none => none
        | some st1 => parseChildrenF cfg fuel parent rest ⟨addIfAbsent ele st1.visited, st1.emitted⟩

end

/-- The top-level loop of `ts_reference_str`:
`for element in sorted(elements): parse_elements(element)`, each root
parsed with the full fuel. -/
def parseRootsF (cfg : Config) (fuel : Nat) : List TSType → RefState → Option RefState
  | [], st => some st
  | e :: es, st =>
      match parseElementsF cfg fuel e st with
      | none => none
      | some st' => parseRootsF cfg fuel es st'

/-- Fuel sufficient for every root of a `ts_reference_str` call
(`parseFuelEnough`). -/
def parseFuel (elements : List TSType) : Nat := 2 * pmL elements + 1

/-- Embeds `ts_reference_str` (src/py2ts/data.py lines 535-601), with the
output returned as the list of emitted named nodes in text order:
`visited` starts as the `ignore` set, and the sorted elements are parsed
in turn. -/
def tsReferenceList (cfg : Config) (elements : List TSType) (ignore : List TSType) :
    List TSType :=
  match parseRootsF cfg (parseFuel elements) (sortNodes (renderTS cfg) elements) ⟨ignore, []⟩ with
  | some st => st.emitted
  | none => []

/-- The string `ts_reference_str` returns: each prepended
`f"{element}\n\n"` in text order. -/
def tsReferenceStr (cfg : Config) (elements : List TSType) (ignore : List TSType) :
    String :=
  String.join ((tsReferenceList cfg elements ignore).map (fun e => renderTS cfg e ++ "\n\n"))

/-- Embeds `TSInterface.full_str`: the closure text of the interface's
field values and inheritance, followed by the interface's own
declaration. -/
def fullStr (cfg : Config) (t : TSType) : String :=
  match t with
  | .intf _ _ fs p =>
      tsReferenceStr cfg
        (sortNodes (renderTS cfg) (fs.map (fun kv => kv.2) ++ p))
        [] ++ renderTS cfg t
  | _ => renderTS cfg t

end TSType

namespace TSType

/-- Embeds `DerivedType.__len__`: the size of the member set for the
set-valued derived types (union, tuple); every other node - the
single-element array and the list-valued record included - reports 1. -/
def tsLen : TSType → Nat
  | .unionT _ es => es.length
  | .tupleT _ es => es.length
  | _ => 1

/-- The `elements` dict of a `TSInterface` (empty for any other node). -/
def intfFields : TSType → List (String × TSType)
  | .intf _ _ fs _ => fs
  | _ => []

/-- The `elements` dict of a `TSEnumType` (empty for any other node). -/
def enumMembers : TSType → List (String × LitVal)
  | .enumT _ _ ms => ms
  | _ => []

/-- The inheritance slot of a `TSInterface`. -/
def intfParent : TSType → List TSType
  | .intf _ _ _ p => p
  | _ => []

mutual

/-- How many full `TSInterface` declarations named `m` a node tree
contains (a `TSInterfaceRef` named `m` counts 0). -/
def cI (m : String) : TSType → Nat
  | .unionT _ es => cIL m es
  | .arrayT _ e => cI m e
  | .tupleT _ es => cIL m es
  | .recordT _ k v => cI m k + cI m v
  | .intf _ n fs p => (if n = m then 1 else 0) + cIF m fs + cIL m p
  | _ => 0

def cIL (m : String) : List TSType → Nat
  | [] => 0
  | t :: ts => cI m t + cIL m ts

def cIF (m : String) : List (String × TSType) → Nat
  | [] => 0
  | (_, v) :: fs => cI m v + cIF m fs

end

end TSType

mutual

/-- Size of a descriptor, used for the generation fuel bound. -/
def szD : PDesc → Nat
  | .prim _ => 1
  | .notRequired d => 1 + szD d
  | .unionD ds => 1 + szDL ds
  | .seqD d => 1 + szD d
  | .tupleD ds => 1 + szDL ds
  | .litD _ => 1
  | .dictD args => 3 + szDL args
  | .enumD _ _ => 1
  | .structD _ => 1

def szDL : List PDesc → Nat
  | [] => 1
  | d :: ds => 1 + szD d + szDL ds

end

/-- Size of a field annotation list. -/
def szDF : List (String × PDesc) → Nat
  | [] => 1
  | (_, d) :: fds => 1 + szD d + szDF fds

/-- Size of a bases list (each base resolves through a `structD` call). -/
def szDB : List String → Nat
  | [] => 1
  | _ :: bs => 2 + szDB bs

/-- The distinct struct names an environment defines. -/
def envNames (env : Env) : List String := (env.map (fun sd => sd.name)).dedup

/-- A per-struct size bound over the environment. -/
def envB (env : Env) : Nat :=
  1 + (env.map (fun sd => szDF sd.fields + szDB sd.bases)).foldr max 0

/-- How many defined struct names are not yet in the in-flight set. -/
def remF (env : Env) (fl : List String) : Nat :=
  (envNames env).countP (fun x => !(fl.contains x))

/-- Fuel sufficient for a top-level generation call (`genTS_fuelEnough`):
the descriptor's size plus one full expansion budget per struct the
environment defines. -/
def genFuel (env : Env) (d : PDesc) : Nat := szD d + remF env [] * envB env

/-- The reflection data of the spec's cycle-safety example
`R { s: string; r: R }`: a self-referential struct. -/
def envRecR : Env := [⟨"R", [("s", .prim .pstr), ("r", .structD "R")], []⟩]

/-- The node `generate` produces for `R` of `envRecR`. -/
def nodeRecR : TSType :=
  .intf false "R" [("s", .prim false .string), ("r", .ref false "R")] []

/-- Reflection data for the inheritance scenarios: `Empty` has no
declared fields, `NonEmpty` and `Other` have one; `FooEN` lists one empty
and one non-empty qualifying ancestor, `FooNN` two non-empty ones,
`FooE` a single empty one. -/
def envInherit : Env :=
  [⟨"Empty", [], []⟩,
   ⟨"NonEmpty", [("x", .prim .pstr)], []⟩,
   ⟨"Other", [("y", .prim .pint)], []⟩,
   ⟨"FooEN", [("foo", .prim .pstr)], ["Empty", "NonEmpty"]⟩,
   ⟨"FooNN", [("foo", .prim .pstr)], ["NonEmpty", "Other"]⟩,
   ⟨"FooE", [("foo", .prim .pstr)], ["Empty"]⟩]

namespace TSType

/-- The diamond scenario for closure rendering: two sibling structs `A`
and `B` inside `RT` both hold the shared dependency `Z`. -/
def dmdZ : TSType := .intf false "Z" [("s", .prim false .string)] []

def dmdA : TSType := .intf false "A" [("z", dmdZ)] []

def dmdB : TSType := .intf false "B" [("z", dmdZ)] []

def dmdR : TSType := .intf false "RT" [("a", dmdA), ("b", dmdB)] []

/-- The invariant of a closure-rendering state: every emitted node is
recorded as visited, and no node was emitted twice. -/
def StInv (st : RefState) : Prop :=
  (∀ x ∈ st.emitted, x ∈ st.visited) ∧ st.emitted.Nodup

end TSType

namespace TSType

theorem pmL_insertNode (key : TSType → String) (x : TSType) :
    ∀ l, pmL (insertNode key x l) = sizeT x + pmL l := by
  intro l
  induction l with
  | nil => simp [insertNode, pmL]
  | cons y ys ih =>
      by_cases h : strLe (key x) (key y) = true
      · simp [insertNode, h, pmL]
      · simp only [insertNode, h, if_false, Bool.false_eq_true, pmL, ih]
        omega

theorem pmL_sortNodes (key : TSType → String) :
    ∀ l, pmL (sortNodes key l) = pmL l := by
  intro l
  induction l with
  | nil => rfl
  | cons t ts ih =>
      simp only [sortNodes, List.foldr] at *
      rw [pmL_insertNode, ih, pmL]

theorem pmL_le_sizeL : ∀ l : List TSType, pmL l ≤ sizeL l := by
  intro l
  induction l with
  | nil => simp [pmL, sizeL]
  | cons t ts ih => simp only [pmL, sizeL]; omega

theorem pmF_le_sizeF : ∀ l : List (String × TSType), pmF l ≤ sizeF l := by
  intro l
  induction l with
  | nil => simp [pmF, sizeF]
  | cons kv fs ih =>
      obtain ⟨k, v⟩ := kv
      simp only [pmF, sizeF]
      omega

end TSType

theorem join_cons (x : String) (xs : List String) :
    String.join (x :: xs) = x ++ String.join xs := by
  simp [String.join_eq]
  rfl

theorem foldl_append_eq_join {α : Type} (f : α → String) :
    ∀ (l : List α) (init : String),
      l.foldl (fun acc x => acc ++ f x) init = init ++ String.join (l.map f) := by
  intro l
  induction l with
  | nil => intro init; simp [String.join, String.append_empty]
  | cons x xs ih =>
      intro init
      simp only [List.foldl, List.map]
      rw [ih, join_cons, String.append_assoc]

/-- C10: every Literal node renders its value wrapped in double quotes
regardless of the value's Python type, and a single-member `Literal`
descriptor generates a bare Literal node; in particular `Literal[1]`
renders as the quoted token "1", not a bare numeric literal. -/
theorem c10_literal_rendering :
    (∀ (cfg : Config) (nr : Bool) (v : LitVal),
        TSType.renderTS cfg (.lit nr v) = "\"" ++ v.str ++ "\"") ∧
    (∀ (cfg : Config) (env : Env) (fuel : Nat) (fl : List String) (v : LitVal),
        genTS cfg env (fuel + 1) fl (.litD [v]) = some (.ok (.lit false v, fl))) ∧
    genTS defaultConfig [] 2 [] (.litD [.i 1]) = some (.ok (.lit false (.i 1), [])) ∧
    TSType.renderTS defaultConfig (.lit false (.i 1)) = "\"1\"" := by
  refine ⟨?_, ?_, by decide, by decide⟩
  · intro cfg nr v
    rfl
  · intro cfg env fuel fl v
    rfl

/-- C8 counterexample: the enum `Colors {Green = 1, Red = 2}` renders
with a comma after the last member as well, so the rendered text is not
the comma-omitted form the claim describes. -/
theorem c8_counterexample :
    TSType.renderTS defaultConfig (.enumT false "Colors" [("Green", .i 1), ("Red", .i 2)]) =
      "export enum Colors \x7b\n\tGreen = 1,\n\tRed = 2,\n\x7d" ∧
    TSType.renderTS defaultConfig (.enumT false "Colors" [("Green", .i 1), ("Red", .i 2)]) ≠
      "export enum Colors \x7b\n\tGreen = 1,\n\tRed = 2\n\x7d" :=
  ⟨by decide, by decide⟩

/-- C8 (amended): every Enum node renders one member per line as
`name = value` with string values single-quoted and integer values bare,
but the comma separator is appended after every member, the last
included. -/
theorem c8_enum_rendering_amended :
    (∀ (cfg : Config) (nr : Bool) (n : String) (ms : List (String × LitVal)),
        TSType.renderTS cfg (.enumT nr n ms) =
          TSType.exportPfx cfg ++ "enum " ++ n ++ " \x7b\n" ++
            String.join (ms.map (TSType.enumMemberLine cfg)) ++ "\x7d") ∧
    (∀ (cfg : Config) (k : String) (v : LitVal),
        TSType.enumMemberLine cfg (k, v) =
          cfg.TAB ++ k ++ " = " ++ TSType.enumValueTok v ++ ",\n") ∧
    (∀ s : String, TSType.enumValueTok (.s s) = "\x27" ++ s ++ "\x27") ∧
    (∀ i : Int, TSType.enumValueTok (.i i) = toString i) ∧
    TSType.renderTS defaultConfig (.enumT false "Colors" [("Green", .i 1), ("Red", .i 2)]) =
      "export enum Colors \x7b\n\tGreen = 1,\n\tRed = 2,\n\x7d" := by
  refine ⟨?_, fun cfg k v => rfl, fun s => rfl, fun i => rfl, by decide⟩
  intro cfg nr n ms
  show ms.foldl (fun acc kv => acc ++ TSType.enumMemberLine cfg kv)
      (TSType.exportPfx cfg ++ "enum " ++ n ++ " \x7b\n") ++ "\x7d" = _
  rw [foldl_append_eq_join]

/-- C5 counterexample: generating a homogeneous sequence whose element
type is a two-member union succeeds, and rendering the resulting Array
node produces the text `Array<number | string>` instead of failing. -/
theorem c5_counterexample :
    genTS defaultConfig [] 10 [] (.seqD (.unionD [.prim .pint, .prim .pstr])) =
      some (.ok (.arrayT false (.unionT false [.prim false .number, .prim false .string]), [])) ∧
    TSType.renderTS defaultConfig
        (.arrayT false (.unionT false [.prim false .number, .prim false .string])) =
      "Array<number | string>" :=
  ⟨by decide, by decide⟩

/-- C5 (amended): `TSArrayType.__str__` raises its
`NotImplementedError` precisely when the Array node's `elements` slot
holds a set/sequence of nodes; an Array whose single element is a
plural Union (or Tuple) renders that element inline, e.g. the array
over a two-member union renders as `Array<number | string>`. -/
theorem c5_array_rendering_amended :
    (∀ (cfg : Config) (l : List TSType),
        TSType.tsArrayStrElements cfg (.inl l) =
          .error "Array of multiple types is not supported!") ∧
    (∀ (cfg : Config) (t : TSType),
        TSType.tsArrayStrElements cfg (.inr t) =
          .ok (TSType.renderTS cfg (.arrayT false t))) ∧
    TSType.tsArrayStrElements defaultConfig
        (.inr (.unionT false [.prim false .number, .prim false .string])) =
      .ok "Array<number | string>" := by
  refine ⟨fun cfg l => rfl, ?_, by decide⟩
  intro cfg t
  show Except.ok ("Array<" ++ TSType.elementName cfg t ++ ">") = _
  rw [TSType.elementName]
  rfl

theorem lookup_filter_contains {β : Type} (ex : List String) :
    ∀ (l : List (String × β)) (k : String),
      List.lookup k (l.filter (fun kv => !(ex.contains kv.1))) =
        if ex.contains k then none else List.lookup k l := by
  intro l
  induction l with
  | nil =>
      intro k
      by_cases h : ex.contains k <;> simp [h]
  | cons kv rest ih =>
      intro k
      obtain ⟨k', v⟩ := kv
      rw [List.filter_cons]
      cases hk' : ex.contains k' with
      | true =>
          rw [if_neg (by decide : ¬((!true) = true)), ih k]
          cases hkk : (k == k') with
          | true =>
              have heq : k = k' := by simpa using hkk
              subst heq
              rw [hk']
              simp
          | false =>
              simp [List.lookup, hkk]
      | false =>
          rw [if_pos (by decide : (!false) = true)]
          cases hkk : (k == k') with
          | true =>
              have heq : k = k' := by simpa using hkk
              subst heq
              rw [hk']
              simp [List.lookup]
          | false =>
              simp only [List.lookup, hkk]
              exact ih k

/-- C9: `exclude` on an Interface or Enum keeps the node's name and
removes exactly the named fields/members: an excluded key no longer
resolves, and every other key still resolves to the same unchanged
value node. -/
theorem c9_exclude_frame :
    (∀ (ex : List String) (nr : Bool) (n : String) (fs : List (String × TSType))
        (p : List TSType),
        TSType.complexName (TSType.exclude ex (.intf nr n fs p)) = some n ∧
        ∀ k, List.lookup k (TSType.intfFields (TSType.exclude ex (.intf nr n fs p))) =
          if ex.contains k then none else List.lookup k fs) ∧
    (∀ (ex : List String) (nr : Bool) (n : String) (ms : List (String × LitVal)),
        TSType.complexName (TSType.exclude ex (.enumT nr n ms)) = some n ∧
        ∀ k, List.lookup k (TSType.enumMembers (TSType.exclude ex (.enumT nr n ms))) =
          if ex.contains k then none else List.lookup k ms) := by
  constructor
  · intro ex nr n fs p
    refine ⟨rfl, ?_⟩
    intro k
    show List.lookup k (fs.filter (fun kv => !(ex.contains kv.1))) = _
    exact lookup_filter_contains ex fs k
  · intro ex nr n ms
    refine ⟨rfl, ?_⟩
    intro k
    show List.lookup k (ms.filter (fun kv => !(ex.contains kv.1))) = _
    exact lookup_filter_contains ex ms k

/-- C7 counterexample: two interface nodes carrying the same name but
different fields are hash-equal yet not equal - the dataclass `__eq__`
compares every field, so sameness of name alone does not make Named
nodes equal. -/
theorem c7_counterexample :
    TSType.complexHashKey (.intf false "A" [] []) =
      TSType.complexHashKey (.intf false "A" [("x", .prim false .string)] []) ∧
    (TSType.intf false "A" [] []) ≠ (TSType.intf false "A" [("x", .prim false .string)] []) :=
  ⟨rfl, by decide⟩

/-- C7 (amended): the hash of a Named node (Interface, Enum, or
Reference) is determined by its name alone - two Named nodes are
hash-equal exactly when their names agree, across classes as well -
while equality compares every dataclass field, so same-name nodes with
different fields are hash-equal but unequal. -/
theorem c7_hash_by_name_amended :
    (∀ (nr nr' : Bool) (n n' : String) (fs fs' : List (String × TSType)) (p p' : List TSType),
        (TSType.complexHashKey (.intf nr n fs p) = TSType.complexHashKey (.intf nr' n' fs' p')
          ↔ n = n')) ∧
    (∀ (nr nr' : Bool) (n n' : String) (ms ms' : List (String × LitVal)),
        (TSType.complexHashKey (.enumT nr n ms) = TSType.complexHashKey (.enumT nr' n' ms')
          ↔ n = n')) ∧
    (∀ (nr nr' : Bool) (n n' : String) (fs : List (String × TSType)) (p : List TSType),
        (TSType.complexHashKey (.intf nr n fs p) = TSType.complexHashKey (.ref nr' n')
          ↔ n = n')) ∧
    (∀ (nr nr' : Bool) (n n' : String) (fs fs' : List (String × TSType)) (p p' : List TSType),
        ((TSType.intf nr n fs p) = (TSType.intf nr' n' fs' p') ↔
          nr = nr' ∧ n = n' ∧ fs = fs' ∧ p = p')) ∧
    TSType.complexHashKey (.intf false "A" [] []) =
      TSType.complexHashKey (.intf false "A" [("x", .prim false .string)] []) := by
  refine ⟨?_, ?_, ?_, ?_, rfl⟩
  · intro nr nr' n n' fs fs' p p'
    simp [TSType.complexHashKey, TSType.complexName]
  · intro nr nr' n n' ms ms'
    simp [TSType.complexHashKey, TSType.complexName]
  · intro nr nr' n n' fs p
    simp [TSType.complexHashKey, TSType.complexName]
  · intro nr nr' n n' fs fs' p p'
    simp [TSType.intf.injEq]

/-- C3 (code bug): `generate_ts` resets the global configuration to the
defaults and discards the result of `CONFIG.override(config)`, so a
supplied partial configuration has no effect: with
`none_as_null = false` the absence type still generates as `null`,
while the configuration the spec promises (defaults merged with the
overrides, `specMergedConfig`) would carry `none_as_null = false` and
render `undefined`. -/
theorem c3_config_override_discarded :
    effectiveConfig defaultConfig (some { none_as_null := some false }) = defaultConfig ∧
    (specMergedConfig (some { none_as_null := some false })).none_as_null = false ∧
    generate_ts [] defaultConfig (some { none_as_null := some false }) 1 (.prim .pnone) =
      some (.ok (.prim false .null, [])) ∧
    TSType.renderTS defaultConfig (.prim false .null) = "null" ∧
    TSType.renderTS (specMergedConfig (some { none_as_null := some false }))
        (.prim false (mapPrim (specMergedConfig (some { none_as_null := some false })) .pnone)) =
      "undefined" :=
  ⟨rfl, rfl, by decide, rfl, rfl⟩

/-- C6: a union descriptor's members are generated in order and
collapsed with set semantics - the Union node holds a duplicate-free
member list with the same membership as the raw generated members, and
its `len` is that list's length; in particular `Union[bool, bool, int]`
yields a Union of exactly 2 members whose rendering contains both
`boolean` and `number`. -/
theorem c6_union_dedup :
    (∀ (cfg : Config) (env : Env) (fuel : Nat) (fl fl' : List String) (ds : List PDesc)
        (t : TSType),
        genTS cfg env (fuel + 1) fl (.unionD ds) = some (.ok (t, fl')) →
        ∃ raw, genList cfg env fuel fl ds = some (.ok (raw, fl')) ∧
          t = .unionT false raw.dedup ∧ TSType.tsLen t = raw.dedup.length ∧
          raw.dedup.Nodup ∧ (∀ x, x ∈ raw.dedup ↔ x ∈ raw)) ∧
    genTS defaultConfig [] 10 [] (.unionD [.prim .pbool, .prim .pbool, .prim .pint]) =
      some (.ok (.unionT false [.prim false .boolean, .prim false .number], [])) ∧
    TSType.tsLen (.unionT false [.prim false .boolean, .prim false .number]) = 2 ∧
    TSType.renderTS defaultConfig (.unionT false [.prim false .boolean, .prim false .number]) =
      "boolean | number" := by
  refine ⟨?_, by decide, by decide, by decide⟩
  intro cfg env fuel fl fl' ds t h
  simp only [genTS] at h
  cases hg : genList cfg env fuel fl ds with
  | none => rw [hg] at h; simp at h
  | some r =>
      cases r with
      | error e => rw [hg] at h; simp at h
      | ok pr =>
          obtain ⟨ts, flx⟩ := pr
          rw [hg] at h
          simp only [Option.some.injEq, Except.ok.injEq, Prod.mk.injEq] at h
          obtain ⟨ht, hfl⟩ := h
          subst hfl
          refine ⟨ts, rfl, ht.symm, ?_, List.nodup_dedup ts, fun x => List.mem_dedup⟩
          rw [← ht]
          rfl

/-- C6 witness: the general dedup property instantiated at the
`Union[bool, bool, int]` call. -/
theorem c6_union_dedup_witness :
    ∃ raw, genList defaultConfig [] 9 [] [.prim .pbool, .prim .pbool, .prim .pint] =
        some (.ok (raw, [])) ∧
      (TSType.unionT false [.prim false .boolean, .prim false .number] : TSType) =
        .unionT false raw.dedup ∧
      TSType.tsLen (TSType.unionT false [.prim false .boolean, .prim false .number]) =
        raw.dedup.length ∧
      raw.dedup.Nodup ∧ (∀ x, x ∈ raw.dedup ↔ x ∈ raw) :=
  c6_union_dedup.1 defaultConfig [] 9 [] [] [.prim .pbool, .prim .pbool, .prim .pint]
    (.unionT false [.prim false .boolean, .prim false .number]) (by decide)

/-- C4 counterexample: `FooEN` has two qualifying ancestors (`Empty`
and `NonEmpty`), so by the claim generation should fail with the
multiple-inheritance error; the code instead skips the empty interface
before counting and succeeds with `NonEmpty` as the single parent. -/
theorem c4_counterexample :
    genTS defaultConfig envInherit 20 [] (.structD "FooEN") =
      some (.ok (.intf false "FooEN" [("foo", .prim false .string)]
        [.intf false "NonEmpty" [("x", .prim false .string)] []],
        ["NonEmpty", "Empty", "FooEN"])) := by decide

/-- C4 (amended): ancestors resolving to an empty Named Interface are
dropped before counting; generation fails with the
multiple-inheritance-unsupported error naming the offending bases only
when more than one ancestor remains after that filtering, a single
remaining ancestor becomes the sole parent, and a type whose only
qualifying ancestor is empty gets no parent. -/
theorem c4_inheritance_amended :
    (∀ rs : List TSType,
        (∃ e, selectParent rs = .error e) ↔ 2 ≤ (keptBases rs).length) ∧
    (∀ (rs : List TSType) (p : TSType), keptBases rs = [p] → selectParent rs = .ok [p]) ∧
    (∀ rs : List TSType, keptBases rs = [] → selectParent rs = .ok []) ∧
    (∀ r : TSType, isEmptyIntf r = true → keptBases [r] = []) ∧
    genTS defaultConfig envInherit 20 [] (.structD "FooE") =
      some (.ok (.intf false "FooE" [("foo", .prim false .string)] [], ["Empty", "FooE"])) ∧
    genTS defaultConfig envInherit 20 [] (.structD "FooNN") =
      some (.error (.multipleInheritance ["NonEmpty", "Other"])) ∧
    genTS defaultConfig envInherit 20 [] (.structD "FooEN") =
      some (.ok (.intf false "FooEN" [("foo", .prim false .string)]
        [.intf false "NonEmpty" [("x", .prim false .string)] []],
        ["NonEmpty", "Empty", "FooEN"])) := by
  refine ⟨?_, ?_, ?_, ?_, by decide, by decide, by decide⟩
  · intro rs
    rcases hkb : keptBases rs with _ | ⟨p, _ | ⟨q, ps⟩⟩
    · simp [selectParent, hkb]
    · simp [selectParent, hkb]
    · simp [selectParent, hkb]
  · intro rs p hkb
    simp [selectParent, hkb]
  · intro rs hkb
    simp [selectParent, hkb]
  · intro r hr
    simp [keptBases, hr]

/-- C4 witness: the amended selection rules instantiated at concrete
base lists. -/
theorem c4_inheritance_amended_witness :
    selectParent [TSType.intf false "NonEmpty" [("x", .prim false .string)] []] =
      .ok [TSType.intf false "NonEmpty" [("x", .prim false .string)] []] ∧
    selectParent [TSType.intf false "Empty" [] []] = .ok [] ∧
    keptBases [TSType.intf false "Empty" [] []] = [] :=
  ⟨c4_inheritance_amended.2.1 [TSType.intf false "NonEmpty" [("x", .prim false .string)] []]
      (TSType.intf false "NonEmpty" [("x", .prim false .string)] []) (by decide),
    c4_inheritance_amended.2.2.1 [TSType.intf false "Empty" [] []] (by decide),
    c4_inheritance_amended.2.2.2.1 (TSType.intf false "Empty" [] []) (by decide)⟩

namespace TSType

theorem contains_iff_memT (l : List TSType) (x : TSType) : l.contains x = true ↔ x ∈ l := by
  simp

theorem mem_addIfAbsent_of_mem (y : TSType) (l : List TSType) {x : TSType} (h : x ∈ l) :
    x ∈ addIfAbsent y l := by
  unfold addIfAbsent
  by_cases hc : l.contains y
  · rw [if_pos hc]; exact h
  · rw [if_neg hc]; exact List.mem_cons_of_mem y h

theorem stInv_push (e : TSType) (st : RefState) (hinv : StInv st)
    (hnot : ¬ (st.visited.contains e = true)) :
    StInv ⟨e :: st.visited, e :: st.emitted⟩ := by
  obtain ⟨hsub, hnd⟩ := hinv
  have hne : e ∉ st.visited := by
    intro hmem
    exact hnot ((contains_iff_memT st.visited e).mpr hmem)
  constructor
  · intro x hx
    cases hx with
    | head => exact List.mem_cons_self e st.visited
    | tail _ hx => exact List.mem_cons_of_mem e (hsub x hx)
  · refine List.Nodup.cons ?_ hnd
    intro hmem
    exact hne (hsub e hmem)

theorem parseF_inv (cfg : Config) : ∀ fuel : Nat,
    (∀ e st st', parseElementsF cfg fuel e st = some st' → StInv st → StInv st') ∧
    (∀ fs st st', parseFieldsF cfg fuel fs st = some st' → StInv st → StInv st') ∧
    (∀ pa l st st', parseChildrenF cfg fuel pa l st = some st' → StInv st → StInv st') := by
  intro fuel
  induction fuel with
  | zero =>
      refine ⟨?_, ?_, ?_⟩
      · intro e st st' h; simp [parseElementsF] at h
      · intro fs st st' h; simp [parseFieldsF] at h
      · intro pa l st st' h; simp [parseChildrenF] at h
  | succ fuel ih =>
      obtain ⟨ihE, ihF, ihC⟩ := ih
      have hpresT : ∀ (e : TSType) (st : RefState), StInv st →
          StInv ⟨e :: st.visited, st.emitted⟩ := by
        intro e st hinv
        obtain ⟨hsub, hnd⟩ := hinv
        exact ⟨fun x hx => List.mem_cons_of_mem _ (hsub x hx), hnd⟩
      have hE : ∀ e st st', parseElementsF cfg (fuel + 1) e st = some st' → StInv st → StInv st' := by
        intro e st st' h hinv
        cases e with
        | intf nr n fs p =>
            simp only [parseElementsF] at h
            by_cases hv : st.visited.contains (intf nr n fs p)
            · rw [if_pos hv] at h; cases h; exact hinv
            · rw [if_neg hv] at h
              have hinv1 := stInv_push (intf nr n fs p) st hinv hv
              split at h
              · simp at h
              · rename_i st2 hf
                have hinv2 : StInv st2 := ihF _ _ _ hf hinv1
                cases p with
                | nil => cases h; exact hinv2
                | cons pa rest => exact ihE pa st2 st' h hinv2
        | enumT nr n ms =>
            simp only [parseElementsF] at h
            by_cases hv : st.visited.contains (enumT nr n ms)
            · rw [if_pos hv] at h; cases h; exact hinv
            · rw [if_neg hv] at h
              cases h
              exact stInv_push (enumT nr n ms) st hinv hv
        | unionT nr es =>
            simp only [parseElementsF] at h
            by_cases hv : st.visited.contains (unionT nr es)
            · rw [if_pos hv] at h; cases h; exact hinv
            · rw [if_neg hv] at h
              exact ihC _ _ _ _ h hinv
        | tupleT nr es =>
            simp only [parseElementsF] at h
            by_cases hv : st.visited.contains (tupleT nr es)
            · rw [if_pos hv] at h; cases h; exact hinv
            · rw [if_neg hv] at h
              exact ihC _ _ _ _ h hinv
        | arrayT nr el =>
            simp only [parseElementsF] at h
            by_cases hv : st.visited.contains (arrayT nr el)
            · rw [if_pos hv] at h; cases h; exact hinv
            · rw [if_neg hv] at h
              exact ihC _ _ _ _ h hinv
        | recordT nr k v =>
            simp only [parseElementsF] at h
            by_cases hv : st.visited.contains (recordT nr k v)
            · rw [if_pos hv] at h; cases h; exact hinv
            · rw [if_neg hv] at h
              exact ihC _ _ _ _ h hinv
        | prim nr p =>
            simp only [parseElementsF] at h
            by_cases hv : st.visited.contains (prim nr p)
            · rw [if_pos hv] at h; cases h; exact hinv
            · rw [if_neg hv] at h
              cases h
              exact hpresT _ st hinv
        | lit nr v =>
            simp only [parseElementsF] at h
            by_cases hv : st.visited.contains (lit nr v)
            · rw [if_pos hv] at h; cases h; exact hinv
            · rw [if_neg hv] at h
              cases h
              exact hpresT _ st hinv
        | ref nr n =>
            simp only [parseElementsF] at h
            by_cases hv : st.visited.contains (ref nr n)
            · rw [if_pos hv] at h; cases h; exact hinv
            · rw [if_neg hv] at h
              cases h
              exact hpresT _ st hinv
      refine ⟨hE, ?_, ?_⟩
      · intro fs st st' h hinv
        cases fs with
        | nil => simp [parseFieldsF] at h; cases h; exact hinv
        | cons kv fs =>
            obtain ⟨k, v⟩ := kv
            simp only [parseFieldsF] at h
            cases he : parseElementsF cfg fuel v st with
            | none => rw [he] at h; simp at h
            | some st1 =>
                rw [he] at h
                exact ihF _ _ _ h (ihE v st st1 he hinv)
      · intro pa l st st' h hinv
        cases l with
        | nil => simp [parseChildrenF] at h; cases h; exact hinv
        | cons ele rest =>
            simp only [parseChildrenF] at h
            by_cases hv : st.visited.contains pa
            · rw [if_pos hv] at h
              exact ihC _ _ _ _ h hinv
            · rw [if_neg hv] at h
              cases he : parseElementsF cfg fuel ele st with
              | none => rw [he] at h; simp at h
              | some st1 =>
                  rw [he] at h
                  have hinv1 : StInv st1 := ihE ele st st1 he hinv
                  refine ihC _ _ _ _ h ?_
                  obtain ⟨hsub, hnd⟩ := hinv1
                  exact ⟨fun x hx => mem_addIfAbsent_of_mem ele st1.visited (hsub x hx), hnd⟩

theorem parseRootsF_inv (cfg : Config) (fuel : Nat) :
    ∀ (roots : List TSType) (st st' : RefState),
      parseRootsF cfg fuel roots st = some st' → StInv st → StInv st' := by
  intro roots
  induction roots with
  | nil =>
      intro st st' h hinv
      simp [parseRootsF] at h
      cases h
      exact hinv
  | cons e es ih =>
      intro st st' h hinv
      simp only [parseRootsF] at h
      cases he : parseElementsF cfg fuel e st with
      | none => rw [he] at h; simp at h
      | some st1 =>
          rw [he] at h
          exact ih st1 st' h ((parseF_inv cfg fuel).1 e st st1 he hinv)

end TSType

/-- C2 counterexample: in the diamond `RT { a: A; b: B }` with both
siblings holding the shared dependency `Z`, the closure rendering emits
(in text order) `B`, `Z`, `A`, `RT`: the shared declaration `Z` appears
exactly once, but `B`, whose declaration depends on `Z`, appears
earlier in the output than `Z` - refuting the claimed
dependencies-before-dependents ordering. -/
theorem c2_counterexample :
    TSType.tsReferenceList defaultConfig [TSType.dmdR] [] =
      [TSType.dmdB, TSType.dmdZ, TSType.dmdA, TSType.dmdR] ∧
    ("z", TSType.dmdZ) ∈ TSType.intfFields TSType.dmdB ∧
    (TSType.tsReferenceList defaultConfig [TSType.dmdR] []).indexOf TSType.dmdB <
      (TSType.tsReferenceList defaultConfig [TSType.dmdR] []).indexOf TSType.dmdZ :=
  ⟨by decide, by decide, by decide⟩

namespace TSType

theorem cI_setNR (m : String) (t : TSType) : cI m t.setNR = cI m t := by
  cases t <;> rfl

theorem cIL_sublist_le (m : String) {l' l : List TSType} (h : List.Sublist l' l) :
    cIL m l' ≤ cIL m l := by
  induction h with
  | slnil => exact Nat.le_refl _
  | cons a _ ih => simp only [cIL]; omega
  | cons₂ a _ ih => simp only [cIL]; omega

theorem cIL_dedup_le (m : String) (l : List TSType) : cIL m l.dedup ≤ cIL m l :=
  cIL_sublist_le m (List.dedup_sublist l)

theorem cI_mem_le (m : String) {x : TSType} {l : List TSType} (h : x ∈ l) :
    cI m x ≤ cIL m l := by
  induction l with
  | nil => cases h
  | cons y ys ih =>
      simp only [cIL]
      cases h with
      | head => omega
      | tail _ h => have := ih h; omega

theorem cIL_map_lit (m : String) (vs : List LitVal) :
    cIL m (vs.map (TSType.lit false)) = 0 := by
  induction vs with
  | nil => rfl
  | cons v vs ih => simp only [List.map, cIL, ih]; rfl

end TSType

theorem selectParent_count_le (m : String) {rs par : List TSType}
    (h : selectParent rs = .ok par) : TSType.cIL m par ≤ TSType.cIL m rs := by
  unfold selectParent at h
  rcases hkb : keptBases rs with _ | ⟨p, _ | ⟨q, ps⟩⟩ <;> rw [hkb] at h
  · cases h
    simp [TSType.cIL]
  · cases h
    have hp : p ∈ keptBases rs := by rw [hkb]; exact List.mem_singleton_self p
    have hp' : p ∈ rs := List.mem_of_mem_filter hp
    have := TSType.cI_mem_le m hp'
    simp only [TSType.cIL]
    omega
  · cases h

/-- Invariant of one generation call over the threaded `interfaces` set:
the set only grows, a name already in flight is never expanded (count 0),
no name is expanded twice, and an expanded name ends up recorded. -/
abbrev GOk (fl fl2 : List String) (c : String → Nat) : Prop :=
  (∀ m, m ∈ fl → m ∈ fl2) ∧ (∀ m, m ∈ fl → c m = 0) ∧
  (∀ m, c m ≤ 1) ∧ (∀ m, 1 ≤ c m → m ∈ fl2)

theorem GOk_zero (fl : List String) (c : String → Nat) (h : ∀ m, c m = 0) :
    GOk fl fl c := by
  refine ⟨fun m hm => hm, fun m _ => h m, fun m => ?_, fun m hm => ?_⟩
  · rw [h m]; exact Nat.zero_le 1
  · rw [h m] at hm; omega

theorem GOk_mono {fl fl2 : List String} {c : String → Nat} (h : GOk fl fl2 c)
    (c' : String → Nat) (hle : ∀ m, c' m ≤ c m) : GOk fl fl2 c' := by
  obtain ⟨s, z, o, mm⟩ := h
  refine ⟨s, fun m hm => ?_, fun m => ?_, fun m hm => ?_⟩
  · have := z m hm; have := hle m; omega
  · have := o m; have := hle m; omega
  · exact mm m (Nat.le_trans hm (hle m))

theorem GOk_comp {fl fl2 fl3 : List String} {c1 c2 : String → Nat}
    (h1 : GOk fl fl2 c1) (h2 : GOk fl2 fl3 c2) :
    GOk fl fl3 (fun m => c1 m + c2 m) := by
  obtain ⟨s1, z1, o1, m1⟩ := h1
  obtain ⟨s2, z2, o2, m2⟩ := h2
  refine ⟨fun m hm => s2 m (s1 m hm), fun m hm => ?_, fun m => ?_, fun m hm => ?_⟩
  · have e1 := z1 m hm
    have e2 := z2 m (s1 m hm)
    show c1 m + c2 m = 0
    omega
  · show c1 m + c2 m ≤ 1
    by_cases hz : c1 m = 0
    · have := o2 m; omega
    · have hone : 1 ≤ c1 m := Nat.one_le_iff_ne_zero.mpr hz
      have := z2 m (m1 m hone)
      have := o1 m
      omega
  · have hm' : 1 ≤ c1 m + c2 m := hm
    by_cases hz : c1 m = 0
    · exact m2 m (by omega)
    · exact s2 m (m1 m (Nat.one_le_iff_ne_zero.mpr hz))

theorem cIL_dedup_map_lit (m : String) (vs : List LitVal) :
    TSType.cIL m ((vs.map (TSType.lit false)).dedup) = 0 :=
  Nat.le_antisymm ((TSType.cIL_map_lit m vs) ▸ TSType.cIL_dedup_le m (vs.map (TSType.lit false)))
    (Nat.zero_le _)

/-- The recursion-tracking invariant of the whole generator, by fuel
induction over the four mutually recursive functions: every successful
call grows the `interfaces` set, expands no in-flight name, expands every
name at most once, and records every name it expands. -/
theorem gen_inv (cfg : Config) (env : Env) : ∀ fuel : Nat,
    (∀ fl d t fl2, genTS cfg env fuel fl d = some (.ok (t, fl2)) →
        GOk fl fl2 (fun m => TSType.cI m t)) ∧
    (∀ fl ds ts fl2, genList cfg env fuel fl ds = some (.ok (ts, fl2)) →
        GOk fl fl2 (fun m => TSType.cIL m ts)) ∧
    (∀ fl fds fs fl2, genFields cfg env fuel fl fds = some (.ok (fs, fl2)) →
        GOk fl fl2 (fun m => TSType.cIF m fs)) ∧
    (∀ fl bs rs fl2, genBases cfg env fuel fl bs = some (.ok (rs, fl2)) →
        GOk fl fl2 (fun m => TSType.cIL m rs)) := by
  intro fuel
  induction fuel with
  | zero =>
      refine ⟨?_, ?_, ?_, ?_⟩ <;> (intro fl a b c h; exact Option.noConfusion h)
  | succ fuel ih =>
      obtain ⟨ihT, ihL, ihF, ihB⟩ := ih
      refine ⟨?_, ?_, ?_, ?_⟩
      · intro fl d t fl2 h
        cases d with
        | prim p =>
            simp only [genTS, Option.some.injEq, Except.ok.injEq, Prod.mk.injEq] at h
            obtain ⟨rfl, rfl⟩ := h
            exact GOk_zero fl _ (fun m => rfl)
        | notRequired d1 =>
            simp only [genTS] at h
            split at h
            · exact Option.noConfusion h
            · simp at h
            · rename_i t1 fl1 heq
              simp only [Option.some.injEq, Except.ok.injEq, Prod.mk.injEq] at h
              obtain ⟨rfl, rfl⟩ := h
              exact GOk_mono (ihT fl d1 t1 fl1 heq) _
                (fun m => Nat.le_of_eq (TSType.cI_setNR m t1))
        | unionD ds =>
            simp only [genTS] at h
            split at h
            · exact Option.noConfusion h
            · simp at h
            · rename_i ts1 fl1 heq
              simp only [Option.some.injEq, Except.ok.injEq, Prod.mk.injEq] at h
              obtain ⟨rfl, rfl⟩ := h
              exact GOk_mono (ihL fl ds ts1 fl1 heq) _
                (fun m => TSType.cIL_dedup_le m ts1)
        | seqD d1 =>
            simp only [genTS] at h
            split at h
            · exact Option.noConfusion h
            · simp at h
            · rename_i t1 fl1 heq
              simp only [Option.some.injEq, Except.ok.injEq, Prod.mk.injEq] at h
              obtain ⟨rfl, rfl⟩ := h
              exact ihT fl d1 t1 fl1 heq
        | tupleD ds =>
            simp only [genTS] at h
            split at h
            · exact Option.noConfusion h
            · simp at h
            · rename_i ts1 fl1 heq
              simp only [Option.some.injEq, Except.ok.injEq, Prod.mk.injEq] at h
              obtain ⟨rfl, rfl⟩ := h
              exact GOk_mono (ihL fl ds ts1 fl1 heq) _
                (fun m => TSType.cIL_dedup_le m ts1)
        | litD vs =>
            cases vs with
            | nil =>
                simp only [genTS, Option.some.injEq, Except.ok.injEq, Prod.mk.injEq] at h
                obtain ⟨rfl, rfl⟩ := h
                exact GOk_zero fl _ (fun m => cIL_dedup_map_lit m [])
            | cons v vs1 =>
                cases vs1 with
                | nil =>
                    simp only [genTS, Option.some.injEq, Except.ok.injEq,
                      Prod.mk.injEq] at h
                    obtain ⟨rfl, rfl⟩ := h
                    exact GOk_zero fl _ (fun m => rfl)
                | cons v2 vs2 =>
                    simp only [genTS, Option.some.injEq, Except.ok.injEq,
                      Prod.mk.injEq] at h
                    obtain ⟨rfl, rfl⟩ := h
                    exact GOk_zero fl _ (fun m => cIL_dedup_map_lit m (v :: v2 :: vs2))
        | dictD args =>
            simp only [genTS] at h
            split at h
            · simp at h
            · split at h
              · exact Option.noConfusion h
              · simp at h
              · rename_i k fl1 heq1
                split at h
                · exact Option.noConfusion h
                · simp at h
                · rename_i v fl2 heq2
                  simp only [Option.some.injEq, Except.ok.injEq, Prod.mk.injEq] at h
                  obtain ⟨rfl, rfl⟩ := h
                  exact GOk_comp (ihT fl _ k fl1 heq1) (ihT fl1 _ v fl2 heq2)
        | enumD n ms =>
            simp only [genTS, Option.some.injEq, Except.ok.injEq, Prod.mk.injEq] at h
            obtain ⟨rfl, rfl⟩ := h
            exact GOk_zero fl _ (fun m => rfl)
        | structD n =>
            simp only [genTS] at h
            by_cases hn : n ∈ fl
            · rw [if_pos hn] at h
              simp only [Option.some.injEq, Except.ok.injEq, Prod.mk.injEq] at h
              obtain ⟨rfl, rfl⟩ := h
              exact GOk_zero fl _ (fun m => rfl)
            · rw [if_neg hn] at h
              split at h
              · simp at h
              · rename_i sd hfind
                split at h
                · exact Option.noConfusion h
                · simp at h
                · rename_i fs flA heqF
                  split at h
                  · exact Option.noConfusion h
                  · simp at h
                  · rename_i rs flB heqB
                    split at h
                    · simp at h
                    · rename_i par hpar
                      simp only [Option.some.injEq, Except.ok.injEq,
                        Prod.mk.injEq] at h
                      obtain ⟨rfl, rfl⟩ := h
                      have HF := ihF (n :: fl) sd.fields fs flA heqF
                      have HB := ihB flA sd.bases rs flB heqB
                      have Hpar : ∀ m, TSType.cIL m par ≤ TSType.cIL m rs :=
                        fun m => selectParent_count_le m hpar
                      have H : GOk (n :: fl) flB
                          (fun m => TSType.cIF m fs + TSType.cIL m par) :=
                        GOk_mono (GOk_comp HF HB) _
                          (fun m => Nat.add_le_add_left (Hpar m) (TSType.cIF m fs))
                      refine ⟨?_, ?_, ?_, ?_⟩
                      · intro m hm
                        exact H.1 m (List.mem_cons_of_mem n hm)
                      · intro m hm
                        have hmn : ¬ n = m := fun he => hn (he ▸ hm)
                        have h0 : TSType.cIF m fs + TSType.cIL m par = 0 :=
                          H.2.1 m (List.mem_cons_of_mem n hm)
                        show (if n = m then 1 else 0) + TSType.cIF m fs +
                          TSType.cIL m par = 0
                        rw [if_neg hmn]
                        omega
                      · intro m
                        show (if n = m then 1 else 0) + TSType.cIF m fs +
                          TSType.cIL m par ≤ 1
                        by_cases hm : n = m
                        · have h0 : TSType.cIF m fs + TSType.cIL m par = 0 :=
                            H.2.1 m (hm ▸ List.mem_cons_self n fl)
                          rw [if_pos hm]
                          omega
                        · have h1 : TSType.cIF m fs + TSType.cIL m par ≤ 1 :=
                            H.2.2.1 m
                          rw [if_neg hm]
                          omega
                      · intro m hm1
                        by_cases hmn : n = m
                        · exact hmn ▸ H.1 n (List.mem_cons_self n fl)
                        · have hm2 : 1 ≤ TSType.cIF m fs + TSType.cIL m par := by
                            have hx : 1 ≤ (if n = m then 1 else 0) +
                                TSType.cIF m fs + TSType.cIL m par := hm1
                            rw [if_neg hmn] at hx
                            omega
                          exact H.2.2.2 m hm2
      · intro fl ds ts fl2 h
        cases ds with
        | nil =>
            simp only [genList, Option.some.injEq, Except.ok.injEq, Prod.mk.injEq] at h
            obtain ⟨rfl, rfl⟩ := h
            exact GOk_zero fl _ (fun m => rfl)
        | cons d ds1 =>
            simp only [genList] at h
            split at h
            · exact Option.noConfusion h
            · simp at h
            · rename_i t1 fl1 heq1
              split at h
              · exact Option.noConfusion h
              · simp at h
              · rename_i ts1 flA heq2
                simp only [Option.some.injEq, Except.ok.injEq, Prod.mk.injEq] at h
                obtain ⟨rfl, rfl⟩ := h
                exact GOk_comp (ihT fl d t1 fl1 heq1) (ihL fl1 ds1 ts1 flA heq2)
      · intro fl fds fs fl2 h
        cases fds with
        | nil =>
            simp only [genFields, Option.some.injEq, Except.ok.injEq,
              Prod.mk.injEq] at h
            obtain ⟨rfl, rfl⟩ := h
            exact GOk_zero fl _ (fun m => rfl)
        | cons fd fds1 =>
            obtain ⟨k, d⟩ := fd
            simp only [genFields] at h
            split at h
            · exact Option.noConfusion h
            · simp at h
            · rename_i t1 fl1 heq1
              split at h
              · exact Option.noConfusion h
              · simp at h
              · rename_i fs1 flA heq2
                simp only [Option.some.injEq, Except.ok.injEq, Prod.mk.injEq] at h
                obtain ⟨rfl, rfl⟩ := h
                exact GOk_comp (ihT fl d t1 fl1 heq1) (ihF fl1 fds1 fs1 flA heq2)
      · intro fl bs rs fl2 h
        cases bs with
        | nil =>
            simp only [genBases, Option.some.injEq, Except.ok.injEq,
              Prod.mk.injEq] at h
            obtain ⟨rfl, rfl⟩ := h
            exact GOk_zero fl _ (fun m => rfl)
        | cons b bs1 =>
            simp only [genBases] at h
            split at h
            · exact Option.noConfusion h
            · simp at h
            · rename_i r1 fl1 heq1
              split at h
              · exact Option.noConfusion h
              · simp at h
              · rename_i rs1 flA heq2
                simp only [Option.some.injEq, Except.ok.injEq, Prod.mk.injEq] at h
                obtain ⟨rfl, rfl⟩ := h
                exact GOk_comp (ihT fl (.structD b) r1 fl1 heq1)
                  (ihB fl1 bs1 rs1 flA heq2)

theorem contains_iff_memS (l : List String) (x : String) :
    l.contains x = true ↔ x ∈ l := by
  simp

theorem countP_le_countP {p q : String → Bool} (hpq : ∀ x, p x = true → q x = true) :
    ∀ l : List String, l.countP p ≤ l.countP q := by
  intro l
  induction l with
  | nil => simp [List.countP_nil]
  | cons a l ih =>
      simp only [List.countP_cons]
      by_cases ha : p a = true
      · rw [if_pos ha, if_pos (hpq a ha)]
        omega
      · rw [if_neg ha]
        by_cases hb : q a = true
        · rw [if_pos hb]; omega
        · rw [if_neg hb]; omega

theorem countP_succ_le {p q : String → Bool} (hpq : ∀ x, p x = true → q x = true) :
    ∀ l : List String, ∀ a, a ∈ l → p a = false → q a = true →
      l.countP p + 1 ≤ l.countP q := by
  intro l
  induction l with
  | nil => intro a ha; cases ha
  | cons b l ih =>
      intro a ha hpa hqa
      simp only [List.countP_cons]
      rcases List.mem_cons.mp ha with rfl | ha1
      · rw [hpa, if_pos hqa]
        have := countP_le_countP hpq l
        simp only [Bool.false_eq_true, if_false]
        omega
      · have hrec := ih a ha1 hpa hqa
        by_cases hb : p b = true
        · rw [if_pos hb, if_pos (hpq b hb)]
          omega
        · rw [if_neg hb]
          by_cases hq : q b = true
          · rw [if_pos hq]; omega
          · rw [if_neg hq]; omega

theorem remF_mono (env : Env) {fl fl2 : List String} (h : ∀ m, m ∈ fl → m ∈ fl2) :
    remF env fl2 ≤ remF env fl := by
  unfold remF
  refine countP_le_countP (fun x hx => ?_) (envNames env)
  simp only [Bool.not_eq_true'] at hx ⊢
  cases hcc : fl.contains x
  · rfl
  · exfalso
    rw [(contains_iff_memS fl2 x).mpr (h x ((contains_iff_memS fl x).mp hcc))] at hx
    cases hx

theorem remF_cons_lt (env : Env) (fl : List String) (n : String)
    (hmem : n ∈ envNames env) (hn : ¬ n ∈ fl) :
    remF env (n :: fl) + 1 ≤ remF env fl := by
  unfold remF
  refine countP_succ_le (fun x hx => ?_) (envNames env) n hmem ?_ ?_
  · simp only [Bool.not_eq_true'] at hx ⊢
    simp only [List.contains_cons, Bool.or_eq_false_iff] at hx
    exact hx.2
  · simp
  · simp only [Bool.not_eq_true']
    cases hcc : fl.contains n
    · rfl
    · exact absurd ((contains_iff_memS fl n).mp hcc) hn

theorem find?_mem_envNames {env : Env} {n : String} {sd : StructDef}
    (h : env.find? (fun s => s.name == n) = some sd) : n ∈ envNames env := by
  have hmem : sd ∈ env := List.mem_of_find?_eq_some h
  have hp := List.find?_some h
  have hname : sd.name = n := eq_of_beq hp
  unfold envNames
  rw [List.mem_dedup]
  exact hname ▸ List.mem_map_of_mem (fun s => s.name) hmem

theorem le_foldr_max (f : StructDef → Nat) :
    ∀ (env : Env) (sd : StructDef), sd ∈ env → f sd ≤ (env.map f).foldr max 0 := by
  intro env
  induction env with
  | nil => intro sd h; cases h
  | cons e env ih =>
      intro sd h
      simp only [List.map, List.foldr]
      rcases List.mem_cons.mp h with rfl | h1
      · exact Nat.le_max_left _ _
      · exact Nat.le_trans (ih sd h1) (Nat.le_max_right _ _)

theorem envB_bound {env : Env} {sd : StructDef} (h : sd ∈ env) :
    szDF sd.fields + szDB sd.bases + 1 ≤ envB env := by
  unfold envB
  have h2 : szDF sd.fields + szDB sd.bases ≤
      (env.map (fun s => szDF s.fields + szDB s.bases)).foldr max 0 :=
    le_foldr_max (fun s => szDF s.fields + szDB s.bases) env sd h
  omega

theorem szD_pos (d : PDesc) : 1 ≤ szD d := by
  cases d <;> simp only [szD] <;> omega

theorem szDL_pos (ds : List PDesc) : 1 ≤ szDL ds := by
  cases ds <;> simp only [szDL] <;> omega

theorem szDF_pos (fds : List (String × PDesc)) : 1 ≤ szDF fds := by
  cases fds with
  | nil => simp only [szDF]; omega
  | cons fd fds => obtain ⟨k, d⟩ := fd; simp only [szDF]; omega

theorem szDB_pos (bs : List String) : 1 ≤ szDB bs := by
  cases bs <;> simp only [szDB] <;> omega

theorem szD_getD (args : List PDesc) : ∀ i : Nat,
    szD (args.getD i (.prim .pany)) ≤ 1 + szDL args := by
  induction args with
  | nil =>
      intro i
      simp only [List.getD_nil, szD, szDL]
      omega
  | cons a as ih =>
      intro i
      cases i with
      | zero =>
          simp only [List.getD_cons_zero, szDL]
          have := szDL_pos as
          omega
      | succ j =>
          simp only [List.getD_cons_succ, szDL]
          have := ih j
          have := szD_pos a
          omega

/-- `genFuel` really is enough fuel: a call whose descriptor size plus one
expansion budget per not-yet-in-flight struct fits below the fuel never
exhausts it, so the `none` branch of the embedding is unreachable and the
Python recursion (guarded by the `interfaces` set) terminates. -/
theorem gen_fuelEnough (cfg : Config) (env : Env) : ∀ fuel : Nat,
    (∀ fl d, szD d + remF env fl * envB env ≤ fuel →
        genTS cfg env fuel fl d ≠ none) ∧
    (∀ fl ds, szDL ds + remF env fl * envB env ≤ fuel →
        genList cfg env fuel fl ds ≠ none) ∧
    (∀ fl fds, szDF fds + remF env fl * envB env ≤ fuel →
        genFields cfg env fuel fl fds ≠ none) ∧
    (∀ fl bs, szDB bs + remF env fl * envB env ≤ fuel →
        genBases cfg env fuel fl bs ≠ none) := by
  intro fuel
  induction fuel with
  | zero =>
      refine ⟨?_, ?_, ?_, ?_⟩ <;> intro fl x hle
      · exact absurd hle (by have := szD_pos x; omega)
      · exact absurd hle (by have := szDL_pos x; omega)
      · exact absurd hle (by have := szDF_pos x; omega)
      · exact absurd hle (by have := szDB_pos x; omega)
  | succ fuel ih =>
      obtain ⟨ihT, ihL, ihF, ihB⟩ := ih
      have hinv := gen_inv cfg env fuel
      refine ⟨?_, ?_, ?_, ?_⟩
      · intro fl d hle hnone
        cases d with
        | prim p => simp [genTS] at hnone
        | notRequired d1 =>
            simp only [genTS] at hnone
            split at hnone
            · rename_i heq
              have hb : szD d1 + remF env fl * envB env ≤ fuel := by
                simp only [szD] at hle; omega
              exact ihT fl d1 hb heq
            · exact Option.noConfusion hnone
            · exact Option.noConfusion hnone
        | unionD ds =>
            simp only [genTS] at hnone
            split at hnone
            · rename_i heq
              have hb : szDL ds + remF env fl * envB env ≤ fuel := by
                simp only [szD] at hle; omega
              exact ihL fl ds hb heq
            · exact Option.noConfusion hnone
            · exact Option.noConfusion hnone
        | seqD d1 =>
            simp only [genTS] at hnone
            split at hnone
            · rename_i heq
              have hb : szD d1 + remF env fl * envB env ≤ fuel := by
                simp only [szD] at hle; omega
              exact ihT fl d1 hb heq
            · exact Option.noConfusion hnone
            · exact Option.noConfusion hnone
        | tupleD ds =>
            simp only [genTS] at hnone
            split at hnone
            · rename_i heq
              have hb : szDL ds + remF env fl * envB env ≤ fuel := by
                simp only [szD] at hle; omega
              exact ihL fl ds hb heq
            · exact Option.noConfusion hnone
            · exact Option.noConfusion hnone
        | litD vs =>
            simp only [genTS] at hnone
            split at hnone <;> exact Option.noConfusion hnone
        | enumD n ms => simp [genTS] at hnone
        | dictD args =>
            simp only [genTS] at hnone
            split at hnone
            · exact Option.noConfusion hnone
            · split at hnone
              · rename_i heq1
                have h1 := szD_getD args 0
                have hb : szD (args.getD 0 (.prim .pany)) +
                    remF env fl * envB env ≤ fuel := by
                  simp only [szD] at hle; omega
                exact ihT fl _ hb heq1
              · exact Option.noConfusion hnone
              · rename_i k fl1 heq1
                split at hnone
                · rename_i heq2
                  have HS := hinv.1 fl (args.getD 0 (.prim .pany)) k fl1 heq1
                  have hsub : remF env fl1 ≤ remF env fl := remF_mono env HS.1
                  have hmul : remF env fl1 * envB env ≤ remF env fl * envB env :=
                    Nat.mul_le_mul_right _ hsub
                  have h1 := szD_getD args 1
                  have hb : szD (args.getD 1 (.prim .pany)) +
                      remF env fl1 * envB env ≤ fuel := by
                    simp only [szD] at hle; omega
                  exact ihT fl1 _ hb heq2
                · exact Option.noConfusion hnone
                · exact Option.noConfusion hnone
        | structD n =>
            simp only [genTS] at hnone
            by_cases hn : n ∈ fl
            · rw [if_pos hn] at hnone
              exact Option.noConfusion hnone
            · rw [if_neg hn] at hnone
              split at hnone
              · exact Option.noConfusion hnone
              · rename_i sd hfind
                have hmemN : n ∈ envNames env := find?_mem_envNames hfind
                have hsd : sd ∈ env := List.mem_of_find?_eq_some hfind
                have hBB : szDF sd.fields + szDB sd.bases + 1 ≤ envB env :=
                  envB_bound hsd
                have hlt : remF env (n :: fl) + 1 ≤ remF env fl :=
                  remF_cons_lt env fl n hmemN hn
                have hmul : (remF env (n :: fl) + 1) * envB env ≤
                    remF env fl * envB env := Nat.mul_le_mul_right _ hlt
                have hexp : remF env (n :: fl) * envB env + envB env ≤
                    remF env fl * envB env := by
                  rw [Nat.add_mul, Nat.one_mul] at hmul
                  exact hmul
                split at hnone
                · rename_i heqF
                  have hb : szDF sd.fields + remF env (n :: fl) * envB env ≤ fuel := by
                    simp only [szD] at hle; omega
                  exact ihF (n :: fl) sd.fields hb heqF
                · exact Option.noConfusion hnone
                · rename_i fs flA heqF
                  split at hnone
                  · rename_i heqB
                    have HS := hinv.2.2.1 (n :: fl) sd.fields fs flA heqF
                    have hsub : remF env flA ≤ remF env (n :: fl) :=
                      remF_mono env HS.1
                    have hmul2 : remF env flA * envB env ≤
                        remF env (n :: fl) * envB env :=
                      Nat.mul_le_mul_right _ hsub
                    have hb : szDB sd.bases + remF env flA * envB env ≤ fuel := by
                      simp only [szD] at hle; omega
                    exact ihB flA sd.bases hb heqB
                  · exact Option.noConfusion hnone
                  · rename_i rs flB heqB
                    split at hnone <;> exact Option.noConfusion hnone
      · intro fl ds hle hnone
        cases ds with
        | nil => simp [genList] at hnone
        | cons d ds1 =>
            simp only [genList] at hnone
            split at hnone
            · rename_i heq
              have hb : szD d + remF env fl * envB env ≤ fuel := by
                simp only [szDL] at hle
                have := szDL_pos ds1
                omega
              exact ihT fl d hb heq
            · exact Option.noConfusion hnone
            · rename_i t1 fl1 heq1
              split at hnone
              · rename_i heq2
                have HS := hinv.1 fl d t1 fl1 heq1
                have hsub : remF env fl1 ≤ remF env fl := remF_mono env HS.1
                have hmul : remF env fl1 * envB env ≤ remF env fl * envB env :=
                  Nat.mul_le_mul_right _ hsub
                have hb : szDL ds1 + remF env fl1 * envB env ≤ fuel := by
                  simp only [szDL] at hle
                  have := szD_pos d
                  omega
                exact ihL fl1 ds1 hb heq2
              · exact Option.noConfusion hnone
              · exact Option.noConfusion hnone
      · intro fl fds hle hnone
        cases fds with
        | nil => simp [genFields] at hnone
        | cons fd fds1 =>
            obtain ⟨k, d⟩ := fd
            simp only [genFields] at hnone
            split at hnone
            · rename_i heq
              have hb : szD d + remF env fl * envB env ≤ fuel := by
                simp only [szDF] at hle
                have := szDF_pos fds1
                omega
              exact ihT fl d hb heq
            · exact Option.noConfusion hnone
            · rename_i t1 fl1 heq1
              split at hnone
              · rename_i heq2
                have HS := hinv.1 fl d t1 fl1 heq1
                have hsub : remF env fl1 ≤ remF env fl := remF_mono env HS.1
                have hmul : remF env fl1 * envB env ≤ remF env fl * envB env :=
                  Nat.mul_le_mul_right _ hsub
                have hb : szDF fds1 + remF env fl1 * envB env ≤ fuel := by
                  simp only [szDF] at hle
                  have := szD_pos d
                  omega
                exact ihF fl1 fds1 hb heq2
              · exact Option.noConfusion hnone
              · exact Option.noConfusion hnone
      · intro fl bs hle hnone
        cases bs with
        | nil => simp [genBases] at hnone
        | cons b bs1 =>
            simp only [genBases] at hnone
            split at hnone
            · rename_i heq
              have hb : szD (.structD b) + remF env fl * envB env ≤ fuel := by
                simp only [szDB] at hle
                simp only [szD]
                have := szDB_pos bs1
                omega
              exact ihT fl (.structD b) hb heq
            · exact Option.noConfusion hnone
            · rename_i r1 fl1 heq1
              split at hnone
              · rename_i heq2
                have HS := hinv.1 fl (.structD b) r1 fl1 heq1
                have hsub : remF env fl1 ≤ remF env fl := remF_mono env HS.1
                have hmul : remF env fl1 * envB env ≤ remF env fl * envB env :=
                  Nat.mul_le_mul_right _ hsub
                have hb : szDB bs1 + remF env fl1 * envB env ≤ fuel := by
                  simp only [szDB] at hle
                  omega
                exact ihB fl1 bs1 hb heq2
              · exact Option.noConfusion hnone
              · exact Option.noConfusion hnone

/-- C1: For every struct-like descriptor - including self-referential and
mutually recursive structs - generation terminates: at the explicit fuel
bound `genFuel` the exhaustion branch is unreachable; every encounter of
a struct name already present in the in-flight `interfaces` set yields a
`TSInterfaceRef` carrying that name, with the set unchanged, instead of
re-expanding the type; and in any successful top-level result each name
is expanded into a full Named Interface at most once - the requested
struct itself exactly once. -/
theorem c1_recursive_generation (current : Config) (config : Option MinimalConfig)
    (env : Env) (n : String) (sd : StructDef)
    (hfind : env.find? (fun s => s.name == n) = some sd) :
    (∀ d : PDesc, generate_ts env current config (genFuel env d) d ≠ none) ∧
    (∀ fuel fl, n ∈ fl →
        genTS (effectiveConfig current config) env (fuel + 1) fl (.structD n) =
          some (.ok (.ref false n, fl))) ∧
    (∀ t fl2,
        generate_ts env current config (genFuel env (.structD n)) (.structD n) =
          some (.ok (t, fl2)) →
        TSType.cI n t = 1 ∧ ∀ m, TSType.cI m t ≤ 1) := by
  refine ⟨?_, ?_, ?_⟩
  · intro d
    exact (gen_fuelEnough (effectiveConfig current config) env (genFuel env d)).1
      [] d (Nat.le_refl _)
  · intro fuel fl hmem
    simp only [genTS]
    rw [if_pos hmem]
  · intro t fl2 h
    have Hall := (gen_inv (effectiveConfig current config) env
      (genFuel env (.structD n))).1 [] (.structD n) t fl2 h
    refine ⟨?_, fun m => Hall.2.2.1 m⟩
    obtain ⟨fuel, hF⟩ : ∃ fuel, genFuel env (.structD n) = fuel + 1 :=
      ⟨remF env [] * envB env, Nat.add_comm 1 _⟩
    rw [hF] at h
    unfold generate_ts at h
    simp only [genTS] at h
    rw [if_neg (List.not_mem_nil n)] at h
    split at h
    · simp at h
    · rename_i sd2 hfind2
      split at h
      · exact Option.noConfusion h
      · simp at h
      · rename_i fs flA heqF
        split at h
        · exact Option.noConfusion h
        · simp at h
        · rename_i rs flB heqB
          split at h
          · simp at h
          · rename_i par hpar
            simp only [Option.some.injEq, Except.ok.injEq, Prod.mk.injEq] at h
            obtain ⟨rfl, rfl⟩ := h
            have HF := (gen_inv (effectiveConfig current config) env fuel).2.2.1
              (n :: []) sd2.fields fs flA heqF
            have HB := (gen_inv (effectiveConfig current config) env fuel).2.2.2
              flA sd2.bases rs flB heqB
            have hf0 : TSType.cIF n fs = 0 := HF.2.1 n (List.mem_cons_self n [])
            have hr0 : TSType.cIL n rs = 0 :=
              HB.2.1 n (HF.1 n (List.mem_cons_self n []))
            have hp0 : TSType.cIL n par = 0 := by
              have := selectParent_count_le n hpar
              omega
            show (if n = n then 1 else 0) + TSType.cIF n fs + TSType.cIL n par = 1
            rw [if_pos rfl]
            omega

theorem c1_recursive_generation_witness :
    generate_ts envRecR defaultConfig none
        (genFuel envRecR (.structD "R")) (.structD "R") ≠ none ∧
    genTS (effectiveConfig defaultConfig none) envRecR 1 ["R"] (.structD "R") =
      some (.ok (.ref false "R", ["R"])) ∧
    (TSType.cI "R" nodeRecR = 1 ∧ TSType.cI "Z" nodeRecR ≤ 1) := by
  have H := c1_recursive_generation defaultConfig none envRecR "R"
    ⟨"R", [("s", .prim .pstr), ("r", .structD "R")], []⟩ (by rfl)
  refine ⟨H.1 (.structD "R"), H.2.1 0 ["R"] (by decide), ?_⟩
  have H3 := H.2.2 nodeRecR ["R"] (by decide)
  exact ⟨H3.1, H3.2 "Z"⟩

namespace TSType

/-- The Named nodes: the two classes `ts_reference_str` prepends to its
output (`TSInterface` and `TSEnumType`). -/
def isNamed : TSType → Bool
  | .intf _ _ _ _ => true
  | .enumT _ _ _ => true
  | _ => false

mutual

/-- The Named nodes `parse_elements` can reach from a node: the node
itself if Named, an interface's field values and (first) inheritance
node, and every child of a `DerivedType`; `TSInterfaceRef`, primitives
and literals are leaves. This is the closure whose declarations the
rendering emits. -/
def namedClosure : TSType → List TSType
  | .intf nr n fs [] => .intf nr n fs [] :: namedClosureF fs
  | .intf nr n fs (pa :: rest) =>
      .intf nr n fs (pa :: rest) :: (namedClosureF fs ++ namedClosure pa)
  | .enumT nr n ms => [.enumT nr n ms]
  | .unionT _ es => namedClosureL es
  | .tupleT _ es => namedClosureL es
  | .arrayT _ el => namedClosure el
  | .recordT _ k v => namedClosure k ++ namedClosure v
  | _ => []

def namedClosureL : List TSType → List TSType
  | [] => []
  | t :: ts => namedClosure t ++ namedClosureL ts

def namedClosureF : List (String × TSType) → List TSType
  | [] => []
  | (_, v) :: fs => namedClosure v ++ namedClosureF fs

end

/-- A visited node is either fully processed (its whole closure is
visited) or still in flight (in the gray list `G` of interfaces whose
fields are being parsed). -/
abbrev GrayInv (G : List TSType) (st : RefState) : Prop :=
  ∀ x, x ∈ st.visited → (∀ y, y ∈ namedClosure x → y ∈ st.visited) ∨ x ∈ G

/-- Every Named node recorded as visited has been emitted. -/
abbrev NEInv (st : RefState) : Prop :=
  ∀ x, x ∈ st.visited → isNamed x = true → x ∈ st.emitted

/-- Common post-state of one parsing call: both invariants hold, the
visited and emitted sets only grew, and every newly visited node is no
larger than the processed argument (bound `b`). -/
abbrev PPost (G : List TSType) (st st2 : RefState) (b : Nat) : Prop :=
  GrayInv G st2 ∧ NEInv st2 ∧
  (∀ x, x ∈ st.visited → x ∈ st2.visited) ∧
  (∀ x, x ∈ st.emitted → x ∈ st2.emitted) ∧
  (∀ x, x ∈ st2.visited → x ∈ st.visited ∨ sizeT x ≤ b)

theorem sizeL_mem_le {t : TSType} : ∀ es : List TSType, t ∈ es → sizeT t ≤ sizeL es := by
  intro es
  induction es with
  | nil => intro h; cases h
  | cons u us ih =>
      intro h
      simp only [sizeL]
      rcases List.mem_cons.mp h with rfl | h2
      · omega
      · have := ih h2; omega

theorem sizeF_mem_le {k : String} {v : TSType} :
    ∀ fs : List (String × TSType), (k, v) ∈ fs → sizeT v ≤ sizeF fs := by
  intro fs
  induction fs with
  | nil => intro h; cases h
  | cons kv fs ih =>
      obtain ⟨k2, v2⟩ := kv
      intro h
      simp only [sizeF]
      rcases List.mem_cons.mp h with he | h2
      · cases he; omega
      · have := ih h2; omega

theorem sizeT_le_pmL_of_mem {t : TSType} : ∀ l : List TSType, t ∈ l → sizeT t ≤ pmL l := by
  intro l
  induction l with
  | nil => intro h; cases h
  | cons u us ih =>
      intro h
      simp only [pmL]
      rcases List.mem_cons.mp h with rfl | h2
      · omega
      · have := ih h2; omega

theorem mem_insertNode (key : TSType → String) (a x : TSType) :
    ∀ l : List TSType, x ∈ insertNode key a l ↔ x = a ∨ x ∈ l := by
  intro l
  induction l with
  | nil => simp [insertNode]
  | cons y ys ih =>
      by_cases hc : strLe (key a) (key y) = true
      · simp only [insertNode, if_pos hc, List.mem_cons]
      · simp only [insertNode, if_neg hc, List.mem_cons, ih]
        tauto

theorem mem_sortNodes (key : TSType → String) (x : TSType) :
    ∀ l : List TSType, x ∈ sortNodes key l ↔ x ∈ l := by
  intro l
  induction l with
  | nil => simp [sortNodes]
  | cons t ts ih =>
      simp only [sortNodes, List.foldr] at ih ⊢
      rw [mem_insertNode, ih, List.mem_cons]

theorem namedClosureF_mem {y : TSType} :
    ∀ fs : List (String × TSType), y ∈ namedClosureF fs →
      ∃ k v, (k, v) ∈ fs ∧ y ∈ namedClosure v := by
  intro fs
  induction fs with
  | nil => intro h; simp [namedClosureF] at h
  | cons kv fs ih =>
      obtain ⟨k, v⟩ := kv
      intro h
      simp only [namedClosureF, List.mem_append] at h
      rcases h with h | h
      · exact ⟨k, v, List.mem_cons_self _ _, h⟩
      · obtain ⟨k2, v2, hm, hy⟩ := ih h
        exact ⟨k2, v2, List.mem_cons_of_mem _ hm, hy⟩

theorem namedClosureL_mem {y : TSType} :
    ∀ l : List TSType, y ∈ namedClosureL l ↔ ∃ t, t ∈ l ∧ y ∈ namedClosure t := by
  intro l
  induction l with
  | nil => simp [namedClosureL]
  | cons t ts ih =>
      simp only [namedClosureL, List.mem_append, ih]
      constructor
      · rintro (hy | ⟨u, hu, hy⟩)
        · exact ⟨t, List.mem_cons_self t ts, hy⟩
        · exact ⟨u, List.mem_cons_of_mem t hu, hy⟩
      · rintro ⟨u, hu, hy⟩
        rcases List.mem_cons.mp hu with rfl | hu2
        · exact Or.inl hy
        · exact Or.inr ⟨u, hu2, hy⟩

theorem self_mem_namedClosure {e : TSType} (h : isNamed e = true) :
    e ∈ namedClosure e := by
  cases e with
  | intf nr n fs p =>
      cases p with
      | nil => exact List.mem_cons_self _ _
      | cons pa rest => exact List.mem_cons_self _ _
  | enumT nr n ms => exact List.mem_cons_self _ _
  | prim nr p => simp [isNamed] at h
  | lit nr v => simp [isNamed] at h
  | unionT nr es => simp [isNamed] at h
  | tupleT nr es => simp [isNamed] at h
  | arrayT nr el => simp [isNamed] at h
  | recordT nr k v => simp [isNamed] at h
  | ref nr n => simp [isNamed] at h

theorem mem_addIfAbsent_elim {x y : TSType} {l : List TSType}
    (h : x ∈ addIfAbsent y l) : x = y ∨ x ∈ l := by
  unfold addIfAbsent at h
  by_cases hc : l.contains y
  · rw [if_pos hc] at h; exact Or.inr h
  · rw [if_neg hc] at h
    exact List.mem_cons.mp h

theorem namedClosure_isNamed : ∀ n : Nat, ∀ t : TSType, sizeT t ≤ n →
    ∀ y, y ∈ namedClosure t → isNamed y = true := by
  intro n
  induction n with
  | zero =>
      intro t ht
      exact absurd ht (by have := sizeT_pos t; omega)
  | succ n ih =>
      intro t ht y hy
      cases t with
      | prim nr p => simp [namedClosure] at hy
      | lit nr v => simp [namedClosure] at hy
      | ref nr nm => simp [namedClosure] at hy
      | enumT nr nm ms =>
          simp only [namedClosure, List.mem_cons] at hy
          rcases hy with rfl | hy
          · rfl
          · cases hy
      | unionT nr es =>
          rw [namedClosure, namedClosureL_mem] at hy
          obtain ⟨u, hu, hy⟩ := hy
          have h1 := sizeL_mem_le es hu
          have h2 : sizeT (unionT nr es) = 1 + sizeL es := rfl
          exact ih u (by omega) y hy
      | tupleT nr es =>
          rw [namedClosure, namedClosureL_mem] at hy
          obtain ⟨u, hu, hy⟩ := hy
          have h1 := sizeL_mem_le es hu
          have h2 : sizeT (tupleT nr es) = 1 + sizeL es := rfl
          exact ih u (by omega) y hy
      | arrayT nr el =>
          rw [namedClosure] at hy
          have h2 : sizeT (arrayT nr el) = 1 + sizeT el := rfl
          exact ih el (by omega) y hy
      | recordT nr k v =>
          rw [namedClosure] at hy
          have h2 : sizeT (recordT nr k v) = 1 + sizeT k + sizeT v := rfl
          rcases List.mem_append.mp hy with hy | hy
          · exact ih k (by omega) y hy
          · exact ih v (by omega) y hy
      | intf nr nm fs p =>
          cases p with
          | nil =>
              simp only [namedClosure, List.mem_cons] at hy
              rcases hy with rfl | hy
              · rfl
              · obtain ⟨k, v, hm, hy⟩ := namedClosureF_mem fs hy
                have h1 := sizeF_mem_le fs hm
                have h2 : sizeT (intf nr nm fs []) = 1 + sizeF fs + sizeL [] := rfl
                exact ih v (by simp [sizeL] at h2; omega) y hy
          | cons pa rest =>
              simp only [namedClosure, List.mem_cons, List.mem_append] at hy
              have h2 : sizeT (intf nr nm fs (pa :: rest)) =
                  1 + sizeF fs + (1 + sizeT pa + sizeL rest) := rfl
              rcases hy with rfl | hy | hy
              · rfl
              · obtain ⟨k, v, hm, hyv⟩ := namedClosureF_mem fs hy
                have h1 := sizeF_mem_le fs hm
                exact ih v (by omega) y hyv
              · exact ih pa (by omega) y hy

end TSType

namespace TSType

/-- Fuel sufficiency for `parse_elements`: a call whose argument fits
below the fuel (twice the node size for an element, plus one for the
in-progress loops) never exhausts it, so the `none` branch of the
embedding is unreachable and the Python recursion terminates. -/
theorem parseFuelEnough (cfg : Config) : ∀ fuel : Nat,
    (∀ e st, 2 * sizeT e ≤ fuel → parseElementsF cfg fuel e st ≠ none) ∧
    (∀ fs st, 2 * sizeF fs + 1 ≤ fuel → parseFieldsF cfg fuel fs st ≠ none) ∧
    (∀ pa l st, 2 * pmL l + 1 ≤ fuel → parseChildrenF cfg fuel pa l st ≠ none) := by
  intro fuel
  induction fuel with
  | zero =>
      refine ⟨?_, ?_, ?_⟩
      · intro e st hle
        exact absurd hle (by have := sizeT_pos e; omega)
      · intro fs st hle
        exact absurd hle (by omega)
      · intro pa l st hle
        exact absurd hle (by omega)
  | succ fuel ih =>
      obtain ⟨ihE, ihF, ihC⟩ := ih
      refine ⟨?_, ?_, ?_⟩
      · intro e st hle hnone
        cases e with
        | prim nr p =>
            simp only [parseElementsF] at hnone
            by_cases hv : st.visited.contains (prim nr p)
            · rw [if_pos hv] at hnone; exact Option.noConfusion hnone
            · rw [if_neg hv] at hnone; exact Option.noConfusion hnone
        | lit nr v =>
            simp only [parseElementsF] at hnone
            by_cases hv : st.visited.contains (lit nr v)
            · rw [if_pos hv] at hnone; exact Option.noConfusion hnone
            · rw [if_neg hv] at hnone; exact Option.noConfusion hnone
        | ref nr n =>
            simp only [parseElementsF] at hnone
            by_cases hv : st.visited.contains (ref nr n)
            · rw [if_pos hv] at hnone; exact Option.noConfusion hnone
            · rw [if_neg hv] at hnone; exact Option.noConfusion hnone
        | enumT nr n ms =>
            simp only [parseElementsF] at hnone
            by_cases hv : st.visited.contains (enumT nr n ms)
            · rw [if_pos hv] at hnone; exact Option.noConfusion hnone
            · rw [if_neg hv] at hnone; exact Option.noConfusion hnone
        | intf nr n fs p =>
            simp only [parseElementsF] at hnone
            by_cases hv : st.visited.contains (intf nr n fs p)
            · rw [if_pos hv] at hnone; exact Option.noConfusion hnone
            · rw [if_neg hv] at hnone
              have hsz : sizeT (intf nr n fs p) = 1 + sizeF fs + sizeL p := rfl
              split at hnone
              · rename_i heq
                have hb : 2 * sizeF fs + 1 ≤ fuel := by omega
                exact ihF fs ⟨intf nr n fs p :: st.visited,
                  intf nr n fs p :: st.emitted⟩ hb heq
              · rename_i st2 heq
                cases p with
                | nil => exact Option.noConfusion hnone
                | cons pa rest =>
                    have hszl : sizeL (pa :: rest) = 1 + sizeT pa + sizeL rest := rfl
                    have hb : 2 * sizeT pa ≤ fuel := by omega
                    exact ihE pa st2 hb hnone
        | unionT nr es =>
            simp only [parseElementsF] at hnone
            by_cases hv : st.visited.contains (unionT nr es)
            · rw [if_pos hv] at hnone; exact Option.noConfusion hnone
            · rw [if_neg hv] at hnone
              have hsz : sizeT (unionT nr es) = 1 + sizeL es := rfl
              have hb : 2 * pmL (sortNodes (renderTS cfg) es) + 1 ≤ fuel := by
                rw [pmL_sortNodes]
                have := pmL_le_sizeL es
                omega
              exact ihC (unionT nr es) (sortNodes (renderTS cfg) es) st hb hnone
        | tupleT nr es =>
            simp only [parseElementsF] at hnone
            by_cases hv : st.visited.contains (tupleT nr es)
            · rw [if_pos hv] at hnone; exact Option.noConfusion hnone
            · rw [if_neg hv] at hnone
              have hsz : sizeT (tupleT nr es) = 1 + sizeL es := rfl
              have hb : 2 * pmL (sortNodes (renderTS cfg) es) + 1 ≤ fuel := by
                rw [pmL_sortNodes]
                have := pmL_le_sizeL es
                omega
              exact ihC (tupleT nr es) (sortNodes (renderTS cfg) es) st hb hnone
        | arrayT nr el =>
            simp only [parseElementsF] at hnone
            by_cases hv : st.visited.contains (arrayT nr el)
            · rw [if_pos hv] at hnone; exact Option.noConfusion hnone
            · rw [if_neg hv] at hnone
              have hsz : sizeT (arrayT nr el) = 1 + sizeT el := rfl
              have hpm : pmL [el] = sizeT el + 0 := rfl
              have hb : 2 * pmL (sortNodes (renderTS cfg) [el]) + 1 ≤ fuel := by
                rw [pmL_sortNodes]
                omega
              exact ihC (arrayT nr el) (sortNodes (renderTS cfg) [el]) st hb hnone
        | recordT nr k v =>
            simp only [parseElementsF] at hnone
            by_cases hv : st.visited.contains (recordT nr k v)
            · rw [if_pos hv] at hnone; exact Option.noConfusion hnone
            · rw [if_neg hv] at hnone
              have hsz : sizeT (recordT nr k v) = 1 + sizeT k + sizeT v := rfl
              have hpm : pmL [k, v] = sizeT k + (sizeT v + 0) := rfl
              have hb : 2 * pmL (sortNodes (renderTS cfg) [k, v]) + 1 ≤ fuel := by
                rw [pmL_sortNodes]
                omega
              exact ihC (recordT nr k v) (sortNodes (renderTS cfg) [k, v]) st hb hnone
      · intro fs st hle hnone
        cases fs with
        | nil => simp [parseFieldsF] at hnone
        | cons kv fs2 =>
            obtain ⟨k, v⟩ := kv
            have hsz : sizeF ((k, v) :: fs2) = 1 + sizeT v + sizeF fs2 := rfl
            simp only [parseFieldsF] at hnone
            split at hnone
            · rename_i heq
              have hb : 2 * sizeT v ≤ fuel := by omega
              exact ihE v st hb heq
            · rename_i st1 heq
              have hb : 2 * sizeF fs2 + 1 ≤ fuel := by omega
              exact ihF fs2 st1 hb hnone
      · intro pa l st hle hnone
        cases l with
        | nil => simp [parseChildrenF] at hnone
        | cons ele rest =>
            have hsz : pmL (ele :: rest) = sizeT ele + pmL rest := rfl
            have hpos := sizeT_pos ele
            simp only [parseChildrenF] at hnone
            by_cases hv : st.visited.contains pa
            · rw [if_pos hv] at hnone
              have hb : 2 * pmL rest + 1 ≤ fuel := by omega
              exact ihC pa rest st hb hnone
            · rw [if_neg hv] at hnone
              split at hnone
              · rename_i heq
                have hb : 2 * sizeT ele ≤ fuel := by omega
                exact ihE ele st hb heq
              · rename_i st1 heq
                have hb : 2 * pmL rest + 1 ≤ fuel := by omega
                exact ihC pa rest ⟨addIfAbsent ele st1.visited, st1.emitted⟩ hb hnone

/-- The top-level loop never exhausts the fuel `ts_reference_str` is
given: every root is one of the sorted elements, so twice its size stays
below `parseFuel`. -/
theorem parseRootsF_fuelEnough (cfg : Config) (fuel : Nat) :
    ∀ (roots : List TSType) (st : RefState),
      (∀ e, e ∈ roots → 2 * sizeT e ≤ fuel) →
      parseRootsF cfg fuel roots st ≠ none := by
  intro roots
  induction roots with
  | nil => intro st hb hnone; simp [parseRootsF] at hnone
  | cons e es ih =>
      intro st hb hnone
      simp only [parseRootsF] at hnone
      cases he : parseElementsF cfg fuel e st with
      | none =>
          exact (parseFuelEnough cfg fuel).1 e st
            (hb e (List.mem_cons_self e es)) he
      | some st1 =>
          rw [he] at hnone
          exact ih st1 (fun x hx => hb x (List.mem_cons_of_mem e hx)) hnone

end TSType

namespace TSType

theorem ppost_skip {G : List TSType} {st : RefState} (e : TSType)
    (hG : GrayInv G st) (hN : NEInv st)
    (hsz : ∀ g, g ∈ G → sizeT e < sizeT g) (hv : e ∈ st.visited) :
    PPost G st st (sizeT e) ∧ (∀ y, y ∈ namedClosure e → y ∈ st.visited) := by
  refine ⟨⟨hG, hN, fun x hx => hx, fun x hx => hx, fun x hx => Or.inl hx⟩, ?_⟩
  intro y hy
  rcases hG e hv with hc | hg
  · exact hc y hy
  · exact absurd (hsz e hg) (Nat.lt_irrefl _)

theorem ppost_push_plain {G : List TSType} {st : RefState} (e : TSType)
    (hG : GrayInv G st) (hN : NEInv st)
    (hclos : namedClosure e = []) (hnm : isNamed e = false) :
    PPost G st ⟨e :: st.visited, st.emitted⟩ (sizeT e) := by
  refine ⟨?_, ?_, fun x hx => List.mem_cons_of_mem e hx, fun x hx => hx, ?_⟩
  · intro x hx
    rcases List.mem_cons.mp hx with rfl | hx2
    · left; intro y hy; rw [hclos] at hy; cases hy
    · rcases hG x hx2 with hc | hg
      · left; intro y hy; exact List.mem_cons_of_mem e (hc y hy)
      · right; exact hg
  · intro x hx hnx
    rcases List.mem_cons.mp hx with rfl | hx2
    · rw [hnm] at hnx; cases hnx
    · exact hN x hx2 hnx
  · intro x hx
    rcases List.mem_cons.mp hx with rfl | hx2
    · right; exact Nat.le_refl _
    · left; exact hx2

theorem ppost_push_named {G : List TSType} {st : RefState} (e : TSType)
    (hG : GrayInv G st) (hN : NEInv st)
    (hclos : namedClosure e = [e]) :
    PPost G st ⟨e :: st.visited, e :: st.emitted⟩ (sizeT e) ∧
      (∀ y, y ∈ namedClosure e → y ∈ e :: st.visited) := by
  constructor
  · refine ⟨?_, ?_, fun x hx => List.mem_cons_of_mem e hx,
      fun x hx => List.mem_cons_of_mem e hx, ?_⟩
    · intro x hx
      rcases List.mem_cons.mp hx with rfl | hx2
      · left; intro y hy
        rw [hclos] at hy
        obtain rfl := List.mem_singleton.mp hy
        exact List.mem_cons_self _ _
      · rcases hG x hx2 with hc | hg
        · left; intro y hy; exact List.mem_cons_of_mem e (hc y hy)
        · right; exact hg
    · intro x hx hnx
      rcases List.mem_cons.mp hx with rfl | hx2
      · exact List.mem_cons_self _ _
      · exact List.mem_cons_of_mem e (hN x hx2 hnx)
    · intro x hx
      rcases List.mem_cons.mp hx with rfl | hx2
      · right; exact Nat.le_refl _
      · left; exact hx2
  · intro y hy
    rw [hclos] at hy
    obtain rfl := List.mem_singleton.mp hy
    exact List.mem_cons_self _ _

theorem ppost_push_gray {G : List TSType} {st : RefState} (e : TSType)
    (hG : GrayInv G st) (hN : NEInv st) :
    PPost (e :: G) st ⟨e :: st.visited, e :: st.emitted⟩ (sizeT e) := by
  refine ⟨?_, ?_, fun x hx => List.mem_cons_of_mem e hx,
    fun x hx => List.mem_cons_of_mem e hx, ?_⟩
  · intro x hx
    rcases List.mem_cons.mp hx with rfl | hx2
    · right; exact List.mem_cons_self _ _
    · rcases hG x hx2 with hc | hg
      · left; intro y hy; exact List.mem_cons_of_mem e (hc y hy)
      · right; exact List.mem_cons_of_mem e hg
  · intro x hx hnx
    rcases List.mem_cons.mp hx with rfl | hx2
    · exact List.mem_cons_self _ _
    · exact List.mem_cons_of_mem e (hN x hx2 hnx)
  · intro x hx
    rcases List.mem_cons.mp hx with rfl | hx2
    · right; exact Nat.le_refl _
    · left; exact hx2

theorem ppost_weaken {G : List TSType} {st st2 : RefState} {b b2 : Nat}
    (h : PPost G st st2 b) (hb : b ≤ b2) : PPost G st st2 b2 := by
  obtain ⟨h1, h2, h3, h4, h5⟩ := h
  refine ⟨h1, h2, h3, h4, fun x hx => ?_⟩
  rcases h5 x hx with hx2 | hx2
  · left; exact hx2
  · right; omega

theorem ppost_comp {G : List TSType} {st st1 st2 : RefState} {b : Nat}
    (h1 : PPost G st st1 b) (h2 : PPost G st1 st2 b) : PPost G st st2 b := by
  obtain ⟨g1, n1, v1, e1, s1⟩ := h1
  obtain ⟨g2, n2, v2, e2, s2⟩ := h2
  refine ⟨g2, n2, fun x hx => v2 x (v1 x hx), fun x hx => e2 x (e1 x hx),
    fun x hx => ?_⟩
  rcases s2 x hx with hx2 | hx2
  · rcases s1 x hx2 with hx3 | hx3
    · left; exact hx3
    · right; exact hx3
  · right; exact hx2

theorem ppost_discharge {G : List TSType} {st st2 : RefState} {b : Nat} (e : TSType)
    (h : PPost (e :: G) st st2 b)
    (hclos : ∀ y, y ∈ namedClosure e → y ∈ st2.visited) : PPost G st st2 b := by
  obtain ⟨g1, n1, v1, e1, s1⟩ := h
  refine ⟨?_, n1, v1, e1, s1⟩
  intro x hx
  rcases g1 x hx with hc | hg
  · left; exact hc
  · rcases List.mem_cons.mp hg with rfl | hg2
    · left; exact hclos
    · right; exact hg2

theorem ppost_addChild {G : List TSType} {st1 : RefState} (ele : TSType)
    (hG1 : GrayInv G st1) (hN1 : NEInv st1)
    (hclos : ∀ y, y ∈ namedClosure ele → y ∈ st1.visited) :
    PPost G st1 ⟨addIfAbsent ele st1.visited, st1.emitted⟩ (sizeT ele) := by
  refine ⟨?_, ?_, fun x hx => mem_addIfAbsent_of_mem ele st1.visited hx,
    fun x hx => hx, ?_⟩
  · intro x hx
    rcases mem_addIfAbsent_elim hx with rfl | hx2
    · left; intro y hy
      exact mem_addIfAbsent_of_mem x st1.visited (hclos y hy)
    · rcases hG1 x hx2 with hc | hg
      · left; intro y hy
        exact mem_addIfAbsent_of_mem ele st1.visited (hc y hy)
      · right; exact hg
  · intro x hx hnx
    rcases mem_addIfAbsent_elim hx with rfl | hx2
    · exact hN1 x (hclos x (self_mem_namedClosure hnx)) hnx
    · exact hN1 x hx2 hnx
  · intro x hx
    rcases mem_addIfAbsent_elim hx with rfl | hx2
    · right; exact Nat.le_refl _
    · left; exact hx2

theorem namedClosureL_sortNodes_of (key : TSType → String) {y : TSType}
    (l : List TSType) (h : y ∈ namedClosureL l) :
    y ∈ namedClosureL (sortNodes key l) := by
  rw [namedClosureL_mem] at h ⊢
  obtain ⟨t, ht, hy⟩ := h
  exact ⟨t, (mem_sortNodes key t l).mpr ht, hy⟩

end TSType

namespace TSType

/-- Completeness of `parse_elements`: a successful call preserves both
invariants, grows the state monotonically with size-bounded additions,
and leaves every Named node of its argument's closure visited. The gray
list `G` holds the interfaces whose expansion is in progress; since
every recursive call processes a strictly smaller node, a gray node is
never re-encountered, so the early exit only skips fully processed
nodes and the derived-branch parent guard never fires. -/
theorem parseF_complete (cfg : Config) : ∀ fuel : Nat,
    (∀ e st st2 G, parseElementsF cfg fuel e st = some st2 →
        GrayInv G st → NEInv st → (∀ g, g ∈ G → sizeT e < sizeT g) →
        PPost G st st2 (sizeT e) ∧ (∀ y, y ∈ namedClosure e → y ∈ st2.visited)) ∧
    (∀ fs st st2 G, parseFieldsF cfg fuel fs st = some st2 →
        GrayInv G st → NEInv st → (∀ g, g ∈ G → sizeF fs < sizeT g) →
        PPost G st st2 (sizeF fs) ∧ (∀ y, y ∈ namedClosureF fs → y ∈ st2.visited)) ∧
    (∀ pa l st st2 G, parseChildrenF cfg fuel pa l st = some st2 →
        GrayInv G st → NEInv st → (∀ g, g ∈ G → pmL l < sizeT g) →
        ¬ pa ∈ st.visited → pmL l < sizeT pa →
        PPost G st st2 (pmL l) ∧ (∀ y, y ∈ namedClosureL l → y ∈ st2.visited)) := by
  intro fuel
  induction fuel with
  | zero =>
      refine ⟨?_, ?_, ?_⟩
      · intro e st st2 G h hG hN hsz
        exact Option.noConfusion h
      · intro fs st st2 G h hG hN hsz
        exact Option.noConfusion h
      · intro pa l st st2 G h hG hN hsz hpa hpl
        exact Option.noConfusion h
  | succ fuel ih =>
      obtain ⟨ihE, ihF, ihC⟩ := ih
      refine ⟨?_, ?_, ?_⟩
      · intro e st st2 G h hG hN hsz
        cases e with
        | prim nr p =>
            simp only [parseElementsF] at h
            by_cases hv : st.visited.contains (prim nr p)
            · rw [if_pos hv] at h
              cases h
              exact ppost_skip _ hG hN hsz ((contains_iff_memT _ _).mp hv)
            · rw [if_neg hv] at h
              cases h
              refine ⟨ppost_push_plain _ hG hN rfl rfl, ?_⟩
              intro y hy
              simp [namedClosure] at hy
        | lit nr v =>
            simp only [parseElementsF] at h
            by_cases hv : st.visited.contains (lit nr v)
            · rw [if_pos hv] at h
              cases h
              exact ppost_skip _ hG hN hsz ((contains_iff_memT _ _).mp hv)
            · rw [if_neg hv] at h
              cases h
              refine ⟨ppost_push_plain _ hG hN rfl rfl, ?_⟩
              intro y hy
              simp [namedClosure] at hy
        | ref nr n =>
            simp only [parseElementsF] at h
            by_cases hv : st.visited.contains (ref nr n)
            · rw [if_pos hv] at h
              cases h
              exact ppost_skip _ hG hN hsz ((contains_iff_memT _ _).mp hv)
            · rw [if_neg hv] at h
              cases h
              refine ⟨ppost_push_plain _ hG hN rfl rfl, ?_⟩
              intro y hy
              simp [namedClosure] at hy
        | enumT nr n ms =>
            simp only [parseElementsF] at h
            by_cases hv : st.visited.contains (enumT nr n ms)
            · rw [if_pos hv] at h
              cases h
              exact ppost_skip _ hG hN hsz ((contains_iff_memT _ _).mp hv)
            · rw [if_neg hv] at h
              cases h
              exact ppost_push_named _ hG hN rfl
        | unionT nr es =>
            simp only [parseElementsF] at h
            by_cases hv : st.visited.contains (unionT nr es)
            · rw [if_pos hv] at h
              cases h
              exact ppost_skip _ hG hN hsz ((contains_iff_memT _ _).mp hv)
            · rw [if_neg hv] at h
              have hnv : ¬ (unionT nr es) ∈ st.visited :=
                fun hm => hv ((contains_iff_memT _ _).mpr hm)
              have hszU : sizeT (unionT nr es) = 1 + sizeL es := rfl
              have hpm : pmL (sortNodes (renderTS cfg) es) = pmL es :=
                pmL_sortNodes _ es
              have hple := pmL_le_sizeL es
              have hlt : pmL (sortNodes (renderTS cfg) es) < sizeT (unionT nr es) := by
                omega
              have hszG2 : ∀ g, g ∈ G → pmL (sortNodes (renderTS cfg) es) < sizeT g := by
                intro g hg
                have := hsz g hg
                omega
              obtain ⟨PC, CC⟩ := ihC (unionT nr es) (sortNodes (renderTS cfg) es)
                st st2 G h hG hN hszG2 hnv hlt
              refine ⟨ppost_weaken PC (by omega), ?_⟩
              intro y hy
              exact CC y (namedClosureL_sortNodes_of _ es hy)
        | tupleT nr es =>
            simp only [parseElementsF] at h
            by_cases hv : st.visited.contains (tupleT nr es)
            · rw [if_pos hv] at h
              cases h
              exact ppost_skip _ hG hN hsz ((contains_iff_memT _ _).mp hv)
            · rw [if_neg hv] at h
              have hnv : ¬ (tupleT nr es) ∈ st.visited :=
                fun hm => hv ((contains_iff_memT _ _).mpr hm)
              have hszU : sizeT (tupleT nr es) = 1 + sizeL es := rfl
              have hpm : pmL (sortNodes (renderTS cfg) es) = pmL es :=
                pmL_sortNodes _ es
              have hple := pmL_le_sizeL es
              have hlt : pmL (sortNodes (renderTS cfg) es) < sizeT (tupleT nr es) := by
                omega
              have hszG2 : ∀ g, g ∈ G → pmL (sortNodes (renderTS cfg) es) < sizeT g := by
                intro g hg
                have := hsz g hg
                omega
              obtain ⟨PC, CC⟩ := ihC (tupleT nr es) (sortNodes (renderTS cfg) es)
                st st2 G h hG hN hszG2 hnv hlt
              refine ⟨ppost_weaken PC (by omega), ?_⟩
              intro y hy
              exact CC y (namedClosureL_sortNodes_of _ es hy)
        | arrayT nr el =>
            simp only [parseElementsF] at h
            by_cases hv : st.visited.contains (arrayT nr el)
            · rw [if_pos hv] at h
              cases h
              exact ppost_skip _ hG hN hsz ((contains_iff_memT _ _).mp hv)
            · rw [if_neg hv] at h
              have hnv : ¬ (arrayT nr el) ∈ st.visited :=
                fun hm => hv ((contains_iff_memT _ _).mpr hm)
              have hszU : sizeT (arrayT nr el) = 1 + sizeT el := rfl
              have hpm : pmL (sortNodes (renderTS cfg) [el]) = pmL [el] :=
                pmL_sortNodes _ _
              have hpm2 : pmL [el] = sizeT el + 0 := rfl
              have hlt : pmL (sortNodes (renderTS cfg) [el]) < sizeT (arrayT nr el) := by
                omega
              have hszG2 : ∀ g, g ∈ G → pmL (sortNodes (renderTS cfg) [el]) < sizeT g := by
                intro g hg
                have := hsz g hg
                omega
              obtain ⟨PC, CC⟩ := ihC (arrayT nr el) (sortNodes (renderTS cfg) [el])
                st st2 G h hG hN hszG2 hnv hlt
              refine ⟨ppost_weaken PC (by omega), ?_⟩
              intro y hy
              exact CC y (namedClosureL_sortNodes_of _ [el] (List.mem_append_left _ hy))
        | recordT nr k v =>
            simp only [parseElementsF] at h
            by_cases hv : st.visited.contains (recordT nr k v)
            · rw [if_pos hv] at h
              cases h
              exact ppost_skip _ hG hN hsz ((contains_iff_memT _ _).mp hv)
            · rw [if_neg hv] at h
              have hnv : ¬ (recordT nr k v) ∈ st.visited :=
                fun hm => hv ((contains_iff_memT _ _).mpr hm)
              have hszU : sizeT (recordT nr k v) = 1 + sizeT k + sizeT v := rfl
              have hpm : pmL (sortNodes (renderTS cfg) [k, v]) = pmL [k, v] :=
                pmL_sortNodes _ _
              have hpm2 : pmL [k, v] = sizeT k + (sizeT v + 0) := rfl
              have hlt : pmL (sortNodes (renderTS cfg) [k, v]) < sizeT (recordT nr k v) := by
                omega
              have hszG2 : ∀ g, g ∈ G → pmL (sortNodes (renderTS cfg) [k, v]) < sizeT g := by
                intro g hg
                have := hsz g hg
                omega
              obtain ⟨PC, CC⟩ := ihC (recordT nr k v) (sortNodes (renderTS cfg) [k, v])
                st st2 G h hG hN hszG2 hnv hlt
              refine ⟨ppost_weaken PC (by omega), ?_⟩
              intro y hy
              have hy2 : y ∈ namedClosure k ++ namedClosure v := hy
              rcases List.mem_append.mp hy2 with hy3 | hy3
              · exact CC y (namedClosureL_sortNodes_of _ [k, v]
                  (List.mem_append_left _ hy3))
              · exact CC y (namedClosureL_sortNodes_of _ [k, v]
                  (List.mem_append_right _ (List.mem_append_left _ hy3)))
        | intf nr n fs p =>
            simp only [parseElementsF] at h
            by_cases hv : st.visited.contains (intf nr n fs p)
            · rw [if_pos hv] at h
              cases h
              exact ppost_skip _ hG hN hsz ((contains_iff_memT _ _).mp hv)
            · rw [if_neg hv] at h
              split at h
              · exact Option.noConfusion h
              · rename_i stf hf
                cases p with
                | nil =>
                    cases h
                    have hszI : sizeT (intf nr n fs []) = 1 + sizeF fs + sizeL [] := rfl
                    have hszL : sizeL ([] : List TSType) = 0 := rfl
                    have hpush := ppost_push_gray (intf nr n fs []) hG hN
                    have hsz1 : ∀ g, g ∈ intf nr n fs [] :: G → sizeF fs < sizeT g := by
                      intro g hg
                      rcases List.mem_cons.mp hg with rfl | hg2
                      · omega
                      · have := hsz g hg2; omega
                    obtain ⟨PF, CF⟩ := ihF fs _ st2 (intf nr n fs [] :: G) hf
                      hpush.1 hpush.2.1 hsz1
                    have hmem : intf nr n fs [] ∈ st2.visited :=
                      PF.2.2.1 _ (List.mem_cons_self _ _)
                    have hclos : ∀ y, y ∈ namedClosure (intf nr n fs []) →
                        y ∈ st2.visited := by
                      intro y hy
                      have hy2 : y ∈ intf nr n fs [] :: namedClosureF fs := hy
                      rcases List.mem_cons.mp hy2 with rfl | hy3
                      · exact hmem
                      · exact CF y hy3
                    exact ⟨ppost_discharge _
                      (ppost_comp hpush (ppost_weaken PF (by omega))) hclos, hclos⟩
                | cons pa rest =>
                    have hszI : sizeT (intf nr n fs (pa :: rest)) =
                        1 + sizeF fs + (1 + sizeT pa + sizeL rest) := rfl
                    have hpush := ppost_push_gray (intf nr n fs (pa :: rest)) hG hN
                    have hsz1 : ∀ g, g ∈ intf nr n fs (pa :: rest) :: G →
                        sizeF fs < sizeT g := by
                      intro g hg
                      rcases List.mem_cons.mp hg with rfl | hg2
                      · omega
                      · have := hsz g hg2; omega
                    obtain ⟨PF, CF⟩ := ihF fs _ stf (intf nr n fs (pa :: rest) :: G) hf
                      hpush.1 hpush.2.1 hsz1
                    have hsz2 : ∀ g, g ∈ intf nr n fs (pa :: rest) :: G →
                        sizeT pa < sizeT g := by
                      intro g hg
                      rcases List.mem_cons.mp hg with rfl | hg2
                      · omega
                      · have := hsz g hg2; omega
                    obtain ⟨PE, CE⟩ := ihE pa stf st2 (intf nr n fs (pa :: rest) :: G) h
                      PF.1 PF.2.1 hsz2
                    have hmem : intf nr n fs (pa :: rest) ∈ st2.visited :=
                      PE.2.2.1 _ (PF.2.2.1 _ (List.mem_cons_self _ _))
                    have hclos : ∀ y, y ∈ namedClosure (intf nr n fs (pa :: rest)) →
                        y ∈ st2.visited := by
                      intro y hy
                      have hy2 : y ∈ intf nr n fs (pa :: rest) ::
                          (namedClosureF fs ++ namedClosure pa) := hy
                      rcases List.mem_cons.mp hy2 with rfl | hy3
                      · exact hmem
                      · rcases List.mem_append.mp hy3 with hy4 | hy4
                        · exact PE.2.2.1 y (CF y hy4)
                        · exact CE y hy4
                    exact ⟨ppost_discharge _
                      (ppost_comp (ppost_comp hpush (ppost_weaken PF (by omega)))
                        (ppost_weaken PE (by omega))) hclos, hclos⟩
      · intro fs st st2 G h hG hN hsz
        cases fs with
        | nil =>
            simp only [parseFieldsF] at h
            cases h
            refine ⟨⟨hG, hN, fun x hx => hx, fun x hx => hx,
              fun x hx => Or.inl hx⟩, ?_⟩
            intro y hy
            simp [namedClosureF] at hy
        | cons kv fs2 =>
            obtain ⟨k, v⟩ := kv
            have hszF : sizeF ((k, v) :: fs2) = 1 + sizeT v + sizeF fs2 := rfl
            simp only [parseFieldsF] at h
            split at h
            · exact Option.noConfusion h
            · rename_i st1 heq
              have hszv : ∀ g, g ∈ G → sizeT v < sizeT g := by
                intro g hg; have := hsz g hg; omega
              obtain ⟨PE, CE⟩ := ihE v st st1 G heq hG hN hszv
              have hszf2 : ∀ g, g ∈ G → sizeF fs2 < sizeT g := by
                intro g hg; have := hsz g hg; omega
              obtain ⟨PF, CF⟩ := ihF fs2 st1 st2 G h PE.1 PE.2.1 hszf2
              refine ⟨ppost_comp (ppost_weaken PE (by omega))
                (ppost_weaken PF (by omega)), ?_⟩
              intro y hy
              have hy2 : y ∈ namedClosure v ++ namedClosureF fs2 := hy
              rcases List.mem_append.mp hy2 with hy3 | hy3
              · exact PF.2.2.1 y (CE y hy3)
              · exact CF y hy3
      · intro pa l st st2 G h hG hN hsz hpa hpl
        cases l with
        | nil =>
            simp only [parseChildrenF] at h
            cases h
            refine ⟨⟨hG, hN, fun x hx => hx, fun x hx => hx,
              fun x hx => Or.inl hx⟩, ?_⟩
            intro y hy
            simp [namedClosureL] at hy
        | cons ele rest =>
            have hszC : pmL (ele :: rest) = sizeT ele + pmL rest := rfl
            simp only [parseChildrenF] at h
            by_cases hvp : st.visited.contains pa
            · exact absurd ((contains_iff_memT _ _).mp hvp) hpa
            · rw [if_neg hvp] at h
              split at h
              · exact Option.noConfusion h
              · rename_i st1 heq
                have hsze : ∀ g, g ∈ G → sizeT ele < sizeT g := by
                  intro g hg; have := hsz g hg; omega
                obtain ⟨PE, CE⟩ := ihE ele st st1 G heq hG hN hsze
                have hadd := ppost_addChild ele PE.1 PE.2.1 CE
                have hpa2 : ¬ pa ∈ addIfAbsent ele st1.visited := by
                  intro hm
                  rcases mem_addIfAbsent_elim hm with rfl | hm2
                  · omega
                  · rcases PE.2.2.2.2 pa hm2 with hin | hsize
                    · exact hpa hin
                    · omega
                have hpl2 : pmL rest < sizeT pa := by omega
                have hszG2 : ∀ g, g ∈ G → pmL rest < sizeT g := by
                  intro g hg; have := hsz g hg; omega
                obtain ⟨PC, CC⟩ := ihC pa rest _ st2 G h hadd.1 hadd.2.1
                  hszG2 hpa2 hpl2
                refine ⟨ppost_comp (ppost_comp (ppost_weaken PE (by omega))
                  (ppost_weaken hadd (by omega))) (ppost_weaken PC (by omega)), ?_⟩
                intro y hy
                have hy2 : y ∈ namedClosure ele ++ namedClosureL rest := hy
                rcases List.mem_append.mp hy2 with hy3 | hy3
                · exact PC.2.2.1 y (mem_addIfAbsent_of_mem ele st1.visited (CE y hy3))
                · exact CC y hy3

end TSType

namespace TSType

/-- Completeness of the top-level loop: with no node in flight, the
final state keeps both invariants and every Named node of every root's
closure is visited. -/
theorem parseRoots_complete (cfg : Config) (fuel : Nat) :
    ∀ (roots : List TSType) (st st2 : RefState),
      parseRootsF cfg fuel roots st = some st2 →
      GrayInv [] st → NEInv st →
      GrayInv [] st2 ∧ NEInv st2 ∧
      (∀ x, x ∈ st.visited → x ∈ st2.visited) ∧
      (∀ y, y ∈ namedClosureL roots → y ∈ st2.visited) := by
  intro roots
  induction roots with
  | nil =>
      intro st st2 h hG hN
      simp only [parseRootsF] at h
      cases h
      refine ⟨hG, hN, fun x hx => hx, ?_⟩
      intro y hy
      simp [namedClosureL] at hy
  | cons e es ih =>
      intro st st2 h hG hN
      simp only [parseRootsF] at h
      cases he : parseElementsF cfg fuel e st with
      | none => rw [he] at h; exact Option.noConfusion h
      | some st1 =>
          rw [he] at h
          obtain ⟨PE, CE⟩ := (parseF_complete cfg fuel).1 e st st1 [] he hG hN
            (fun g hg => absurd hg (List.not_mem_nil g))
          obtain ⟨hG2, hN2, hmono, hcl⟩ := ih st1 st2 h PE.1 PE.2.1
          refine ⟨hG2, hN2, fun x hx => hmono x (PE.2.2.1 x hx), ?_⟩
          intro y hy
          have hy2 : y ∈ namedClosure e ++ namedClosureL es := hy
          rcases List.mem_append.mp hy2 with hy3 | hy3
          · exact hmono y (CE y hy3)
          · exact hcl y hy3

end TSType

/-- C2 (amended): in the text produced by closure rendering over any
finite graph of nodes, each Named node (Interface or Enum) declaration
of the closure of the elements is emitted exactly once - the emitted
list is duplicate-free and, with nothing ignored, contains every Named
node of the closure - and in the diamond the shared dependency is
emitted exactly once; declarations are however not globally ordered
with dependencies before dependents (see the counterexample). -/
theorem c2_closure_dedup_amended :
    (∀ (cfg : Config) (elements ignore : List TSType),
        (TSType.tsReferenceList cfg elements ignore).Nodup) ∧
    List.count TSType.dmdZ (TSType.tsReferenceList defaultConfig [TSType.dmdR] []) = 1 ∧
    (∀ (cfg : Config) (elements : List TSType) (y : TSType),
        y ∈ TSType.namedClosureL elements →
        List.count y (TSType.tsReferenceList cfg elements []) = 1) := by
  refine ⟨?_, by decide, ?_⟩
  · intro cfg elements ignore
    unfold TSType.tsReferenceList
    cases hr : TSType.parseRootsF cfg (TSType.parseFuel elements)
        (TSType.sortNodes (TSType.renderTS cfg) elements) ⟨ignore, []⟩ with
    | none => simp
    | some st =>
        simp only
        have hinv0 : TSType.StInv ⟨ignore, []⟩ :=
          ⟨fun x hx => absurd hx (List.not_mem_nil x), List.nodup_nil⟩
        exact (TSType.parseRootsF_inv cfg (TSType.parseFuel elements) _ _ st hr hinv0).2
  · intro cfg elements y hy
    unfold TSType.tsReferenceList
    cases hr : TSType.parseRootsF cfg (TSType.parseFuel elements)
        (TSType.sortNodes (TSType.renderTS cfg) elements) ⟨[], []⟩ with
    | none =>
        exfalso
        refine TSType.parseRootsF_fuelEnough cfg (TSType.parseFuel elements) _ _ ?_ hr
        intro e he
        have h1 : TSType.sizeT e ≤
            TSType.pmL (TSType.sortNodes (TSType.renderTS cfg) elements) :=
          TSType.sizeT_le_pmL_of_mem _ he
        rw [TSType.pmL_sortNodes] at h1
        unfold TSType.parseFuel
        omega
    | some st =>
        simp only
        have hinv0 : TSType.StInv ⟨[], []⟩ :=
          ⟨fun x hx => absurd hx (List.not_mem_nil x), List.nodup_nil⟩
        have hnd : st.emitted.Nodup :=
          (TSType.parseRootsF_inv cfg (TSType.parseFuel elements) _ _ st hr hinv0).2
        have hG0 : TSType.GrayInv [] ⟨[], []⟩ :=
          fun x hx => absurd hx (List.not_mem_nil x)
        have hN0 : TSType.NEInv ⟨[], []⟩ :=
          fun x hx => absurd hx (List.not_mem_nil x)
        obtain ⟨hG2, hN2, hmono, hcl⟩ := TSType.parseRoots_complete cfg
          (TSType.parseFuel elements) _ _ st hr hG0 hN0
        have hy2 : y ∈ TSType.namedClosureL
            (TSType.sortNodes (TSType.renderTS cfg) elements) :=
          TSType.namedClosureL_sortNodes_of _ elements hy
        have hyvis : y ∈ st.visited := hcl y hy2
        have hynamed : TSType.isNamed y = true := by
          rw [TSType.namedClosureL_mem] at hy
          obtain ⟨t, ht, hyt⟩ := hy
          exact TSType.namedClosure_isNamed (TSType.sizeT t) t (Nat.le_refl _) y hyt
        have hyem : y ∈ st.emitted := hN2 y hyvis hynamed
        exact List.count_eq_one_of_mem hnd hyem
